import Mathlib

/-!
# Hermes2D sub-element transform stack (src/transform.h) and adaptivity drivers

A shallow embedding of the class `Transformable` and a verification of its
contract, followed by the adaptivity loops of the example and test drivers and
by the parts of the tutorials and tests the contract speaks of.

Conventions of the embedding.

* `double` is an abstract scalar type `α` carrying the operations the code
  uses (`*`, `+`, the constants `1.0` and `0.0`).  Results that do not need
  algebraic laws are proved for every such `α`; results "over exact
  arithmetic" are proved for commutative rings.
* `Trf stack[21]` is a map from array index to entry.  The pointer `ctm`
  always points into `stack`, so it is kept as the index `k` with
  `ctm = stack + k`.
* `uint64 sub_idx` is a natural number, with every operation reduced modulo
  `2^64` as the machine does; `int top` and `int son` are integers.
* `assert` is active (a debug build, the one in which the constructor also
  clears the stack) and, like `error`, stops the call.  A stopped call is
  reported together with the state the object has at that moment.
-/

namespace Hermes2D

/-! ## Data model -/

/-- The struct `Trf`: a diagonal 2x2 matrix `m` and a translation vector `t`,
each a `double2`. -/
structure Trf (α : Type) where
  m : α × α
  t : α × α
  deriving DecidableEq, Repr

/-- Modelled from the spec: `Element` is declared in mesh.h, which is not among
the sources.  The spec gives an element a shape kind (triangle or quadrilateral)
and a stable integer handle; `is_triangle` is all the transform code reads. -/
structure Element where
  id : Nat
  is_triangle : Bool
  deriving DecidableEq, Repr

/-- The global tables `tri_trf[4]` and `quad_trf[8]`.  They are declared
`extern` in transform.h and defined outside the sources, so their contents are
a parameter.  The code indexes them with an unchecked `int`; a table is
therefore a map on all integers, whose values outside `0..3` (resp. `0..7`)
stand for whatever memory lies around the array. -/
structure Tables (α : Type) where
  tri_trf : Int → Trf α
  quad_trf : Int → Trf α

/-- The data members of `Transformable`. -/
structure Transformable (α : Type) where
  /-- Member `Element* element`, `none` being `NULL`. -/
  element : Option Element
  /-- Member `Trf* ctm`, as the index `k` with `ctm = stack + k`. -/
  ctm : Int
  /-- Member `uint64 sub_idx`. -/
  sub_idx : Nat
  /-- Member `Trf stack[21]`. -/
  stack : Int → Trf α
  /-- Member `int top`. -/
  top : Int

/-- Modelled from the spec: why a call stopped.  The macro `error` is defined
outside the sources; by the spec a transform stack overflow is "fatal, abort the
operation immediately" and the push "reports an error, does not mutate state",
so `error(...)` stops the call where it stands.  `assert` is the C library's,
active in a debug build. -/
inductive Failure where
  /-- The check `assert(element != NULL)` in `push_transform`. -/
  | assert_element
  /-- The call `error("Too deep transform.")` in `push_transform`. -/
  | too_deep_transform
  /-- The check `assert(top > 0)` in `pop_transform`. -/
  | assert_top
  deriving DecidableEq, Repr

/-- The result of a call that may stop: the state after a completed call, or
the reason for stopping with the state at that moment. -/
inductive Outcome (σ : Type) where
  | done (s : σ)
  | failed (f : Failure) (s : σ)

/-- The state an outcome carries. -/
def Outcome.state {σ : Type} : Outcome σ → σ
  | .done s => s
  | .failed _ s => s

/-- Number of entries of `stack`. -/
def STACK_SIZE : Int := 21

/-- Modulus of `uint64` arithmetic. -/
def UINT64_MOD : Nat := 2 ^ 64

/-- Conversion of an `int` to `uint64`. -/
def to_uint64 (i : Int) : Nat := (i % (UINT64_MOD : Int)).toNat

/-- Assignment `p->m[0] = v` for `p = stack + i`. -/
def write_m0 {α : Type} (stack : Int → Trf α) (i : Int) (v : α) : Int → Trf α :=
  fun j => if j = i then { stack j with m := (v, (stack j).m.2) } else stack j

/-- Assignment `p->m[1] = v` for `p = stack + i`. -/
def write_m1 {α : Type} (stack : Int → Trf α) (i : Int) (v : α) : Int → Trf α :=
  fun j => if j = i then { stack j with m := ((stack j).m.1, v) } else stack j

/-- Assignment `p->t[0] = v` for `p = stack + i`. -/
def write_t0 {α : Type} (stack : Int → Trf α) (i : Int) (v : α) : Int → Trf α :=
  fun j => if j = i then { stack j with t := (v, (stack j).t.2) } else stack j

/-- Assignment `p->t[1] = v` for `p = stack + i`. -/
def write_t1 {α : Type} (stack : Int → Trf α) (i : Int) (v : α) : Int → Trf α :=
  fun j => if j = i then { stack j with t := ((stack j).t.1, v) } else stack j

namespace Transformable

variable {α : Type}

/-! ## Operations -/

/-- The method `Transformable::reset_transform`. -/
def reset_transform [One α] [Zero α] (s : Transformable α) : Transformable α :=
  let st1 := write_m1 s.stack 0 1
  let st2 := write_m0 st1 0 1
  let st3 := write_t1 st2 0 0
  let st4 := write_t0 st3 0 0
  { s with stack := st4, ctm := 0, sub_idx := 0, top := 0 }

/-- The constructor `Transformable::Transformable`, run on the uninitialised object `raw`:
the stack is cleared (`memset`), the transform reset, the element set to
`NULL`. -/
def ctor [One α] [Zero α] (raw : Transformable α) : Transformable α :=
  let s1 := { raw with stack := fun _ => ⟨(0, 0), (0, 0)⟩ }
  let s2 := reset_transform s1
  { s2 with element := none }

/-- The method `Transformable::set_active_element`. -/
def set_active_element (s : Transformable α) (e : Option Element) : Transformable α :=
  { s with element := e }

/-- The method `Transformable::get_active_element`. -/
def get_active_element (s : Transformable α) : Option Element := s.element

/-- The method `Transformable::push_transform`. -/
def push_transform [Mul α] [Add α] (tb : Tables α) (s : Transformable α) (son : Int) :
    Outcome (Transformable α) :=
  match s.element with
  | none => .failed .assert_element s
  | some e =>
    if s.top ≥ 20 then .failed .too_deep_transform s
    else
      let top := s.top + 1
      let mat := top
      let tr := if e.is_triangle then tb.tri_trf son else tb.quad_trf son
      let st1 := write_m0 s.stack mat ((s.stack s.ctm).m.1 * tr.m.1)
      let st2 := write_m1 st1 mat ((st1 s.ctm).m.2 * tr.m.2)
      let st3 := write_t0 st2 mat ((st2 s.ctm).m.1 * tr.t.1 + (st2 s.ctm).t.1)
      let st4 := write_t1 st3 mat ((st3 s.ctm).m.2 * tr.t.2 + (st3 s.ctm).t.2)
      .done { s with
        stack := st4
        top := top
        ctm := mat
        sub_idx := (((s.sub_idx <<< 3) % UINT64_MOD + to_uint64 son) % UINT64_MOD + 1)
          % UINT64_MOD }

/-- The method `Transformable::pop_transform`. -/
def pop_transform (s : Transformable α) : Outcome (Transformable α) :=
  if s.top > 0 then
    let top := s.top - 1
    .done { s with
      top := top
      ctm := top
      sub_idx := ((s.sub_idx + (UINT64_MOD - 1)) % UINT64_MOD) >>> 3 }
  else .failed .assert_top s

/-- The method `Transformable::get_transform`. -/
def get_transform (s : Transformable α) : Nat := s.sub_idx

/-- The method `Transformable::get_ctm`, dereferenced: the current transform `*ctm`. -/
def get_ctm (s : Transformable α) : Trf α := s.stack s.ctm

/-- The method `Transformable::get_transform_jacobian`. -/
def get_transform_jacobian [Mul α] (s : Transformable α) : α :=
  (s.stack s.ctm).m.1 * (s.stack s.ctm).m.2

/-- The method `Transformable::get_depth`. -/
def get_depth (s : Transformable α) : Int := s.top

/-! ## Call sequences and reachable states -/

/-- A call of one of the two stack operations. -/
inductive Call where
  | push (son : Int)
  | pop
  deriving DecidableEq, Repr

/-- One call. -/
def step [Mul α] [Add α] (tb : Tables α) (s : Transformable α) : Call → Outcome (Transformable α)
  | .push son => push_transform tb s son
  | .pop => pop_transform s

/-- A sequence of calls, run until the first one that stops. -/
def run [Mul α] [Add α] (tb : Tables α) (s : Transformable α) :
    List Call → Outcome (Transformable α)
  | [] => .done s
  | c :: cs =>
    match step tb s c with
    | .done s' => run tb s' cs
    | .failed f s' => .failed f s'

/-- The documented range of `son`: "in the range [0-3] for triangles and [0-7]
for quads". -/
def valid_son (e : Element) (son : Int) : Prop :=
  0 ≤ son ∧ son < (if e.is_triangle then 4 else 8)

instance (e : Element) (son : Int) : Decidable (valid_son e son) := by
  unfold valid_son; infer_instance

/-- The table entry `push_transform` selects for the active element `e`. -/
def son_trf (tb : Tables α) (e : Element) (son : Int) : Trf α :=
  if e.is_triangle then tb.tri_trf son else tb.quad_trf son

/-- States reachable with active element `e`: from `reset_transform`, by calls
of `push_transform` with a son valid for `e` and of `pop_transform`, none of
which stops. -/
inductive Reachable [Mul α] [Add α] [One α] [Zero α] (tb : Tables α) (e : Element) :
    Transformable α → Prop
  | reset (s : Transformable α) (h : s.element = some e) : Reachable tb e (reset_transform s)
  | push (s s' : Transformable α) (son : Int) (hs : Reachable tb e s) (hv : valid_son e son)
      (h : push_transform tb s son = .done s') : Reachable tb e s'
  | pop (s s' : Transformable α) (hs : Reachable tb e s)
      (h : pop_transform s = .done s') : Reachable tb e s'

/-! ## Reference functions on son sequences -/

/-- The identity transform. -/
def identity_trf [One α] [Zero α] : Trf α := ⟨(1, 1), (0, 0)⟩

/-- Composition of a cumulative transform `c` with a son transform `tr`. -/
def compose [Mul α] [Add α] (c tr : Trf α) : Trf α :=
  ⟨(c.m.1 * tr.m.1, c.m.2 * tr.m.2), (c.m.1 * tr.t.1 + c.t.1, c.m.2 * tr.t.2 + c.t.2)⟩

/-- The path index of a son sequence (in push order), as an exact number. -/
def encode (sons : List Int) : Nat :=
  sons.foldl (fun i son => 8 * i + son.toNat + 1) 0

/-- The cumulative transform of a son sequence (in push order). -/
def path_trf [Mul α] [Add α] [One α] [Zero α] (tb : Tables α) (e : Element)
    (sons : List Int) : Trf α :=
  sons.foldl (fun c son => compose c (son_trf tb e son)) identity_trf

/-- The state `s` holds the son sequence `sons` on its stack. -/
def Tracks [Mul α] [Add α] [One α] [Zero α] (tb : Tables α) (e : Element)
    (s : Transformable α) (sons : List Int) : Prop :=
  s.element = some e ∧ s.top = sons.length ∧ sons.length ≤ 20 ∧ s.ctm = s.top ∧
  s.sub_idx = encode sons ∧ (∀ son ∈ sons, valid_son e son) ∧
  ∀ i : Nat, i ≤ sons.length → s.stack i = path_trf tb e (sons.take i)

/-! ## Decoding a path index -/

/-- Modelled from the spec: the decoding loop of `set_transform`, run for at
most `fuel` levels.  The spec packs the sons "each biased by +1 ... at 3 bits
per level", the last one lowest ("left-shifting 3 bits and adding"), and
undoes one level "by right-shifting 3 bits after subtracting 1"; so while the
index is not 0 its last son is `(idx - 1) & 7` and the index of the levels
before it `(idx - 1) >> 3`. -/
def decode_aux : Nat → Nat → List Int → List Int
  | 0, _, acc => acc
  | fuel + 1, idx, acc =>
    if idx > 0 then decode_aux fuel ((idx - 1) >>> 3) ((((idx - 1) &&& 7 : Nat) : Int) :: acc)
    else acc

/-- Levels a `uint64` can hold: `8 ^ 22 > 2 ^ 64`, so the decoding loop ends
within 22 rounds on every index. -/
def MAX_LEVELS : Nat := 22

/-- Modelled from the spec: the son sequence (in push order) packed in a path
index. -/
def decode (idx : Nat) : List Int := decode_aux MAX_LEVELS idx []

/-- Modelled from the spec: `Transformable::set_transform` is declared in
transform.h and defined in transform.cpp, which is not among the sources.  The
spec: it "rebuilds the stack from scratch by decoding the packed path and
replaying `push` for each level". -/
def set_transform [Mul α] [Add α] [One α] [Zero α] (tb : Tables α) (s : Transformable α)
    (idx : Nat) : Outcome (Transformable α) :=
  run tb (reset_transform s) ((decode idx).map Call.push)

/-! ## States of an object from its construction on -/

/-- States an object can be in after its construction: reached from the
constructor by calls of `set_active_element`, `reset_transform`,
`push_transform` (with any son) and `pop_transform`, none of which stops. -/
inductive Constructed [Mul α] [Add α] [One α] [Zero α] (tb : Tables α) :
    Transformable α → Prop
  | ctor (raw : Transformable α) : Constructed tb (ctor raw)
  | set_active_element (s : Transformable α) (e : Option Element) (hs : Constructed tb s) :
      Constructed tb (set_active_element s e)
  | reset (s : Transformable α) (hs : Constructed tb s) : Constructed tb (reset_transform s)
  | push (s s' : Transformable α) (son : Int) (hs : Constructed tb s)
      (h : push_transform tb s son = .done s') : Constructed tb s'
  | pop (s s' : Transformable α) (hs : Constructed tb s)
      (h : pop_transform s = .done s') : Constructed tb s'

/-- Indices of the entries of `stack` a completing `push_transform` touches in
the state `s`: it writes through `mat = stack + (++top)` and reads through
`ctm`. -/
def push_stack_accesses (s : Transformable α) : List Int := [s.top + 1, s.ctm]

/-- Index of the entry of `stack` a completing `pop_transform` makes current in
the state `s`: `ctm = stack + (--top)`. -/
def pop_stack_accesses (s : Transformable α) : List Int := [s.top - 1]

/-- The action of a transform on a point, in the words of the contract:
`tr(p) = tr.m * p + tr.t`, componentwise. -/
def apply_trf [Mul α] [Add α] (tr : Trf α) (p : α × α) : α × α :=
  (tr.m.1 * p.1 + tr.t.1, tr.m.2 * p.2 + tr.t.2)

/-! ## Descents with sons in `0..7`, whatever the shape -/

/-- States reachable from `reset_transform` by calls of `push_transform` with a
son in `0..7` and of `pop_transform`, none of which stops; the active element
is whatever it is. -/
inductive Descended [Mul α] [Add α] [One α] [Zero α] (tb : Tables α) :
    Transformable α → Prop
  | reset (s : Transformable α) : Descended tb (reset_transform s)
  | push (s s' : Transformable α) (son : Int) (hs : Descended tb s)
      (hson : 0 ≤ son ∧ son ≤ 7) (h : push_transform tb s son = .done s') : Descended tb s'
  | pop (s s' : Transformable α) (hs : Descended tb s)
      (h : pop_transform s = .done s') : Descended tb s'

/-- States an object can be in before any call of `set_active_element` with an
element other than `NULL`: reached from the constructor by `reset_transform`,
`set_active_element(NULL)`, and calls of `push_transform` and `pop_transform`
that do not stop. -/
inductive Unset [Mul α] [Add α] [One α] [Zero α] (tb : Tables α) :
    Transformable α → Prop
  | ctor (raw : Transformable α) : Unset tb (ctor raw)
  | set_null (s : Transformable α) (hs : Unset tb s) : Unset tb (set_active_element s none)
  | reset (s : Transformable α) (hs : Unset tb s) : Unset tb (reset_transform s)
  | push (s s' : Transformable α) (son : Int) (hs : Unset tb s)
      (h : push_transform tb s son = .done s') : Unset tb s'
  | pop (s s' : Transformable α) (hs : Unset tb s)
      (h : pop_transform s = .done s') : Unset tb s'

/-- The sum of `(s_k + 1) * 8^(n-k)` over a son sequence `s_1, ..., s_n`, in the
words of the contract. -/
def exact_index_sum : List Int → Nat
  | [] => 0
  | son :: rest => (son.toNat + 1) * 8 ^ rest.length + exact_index_sum rest

/-- The decoding of the contract applied repeatedly, at most `fuel` times, until
the index is 0: the sons `(x - 1) & 7` in the order they are read, each time
going on with `(x - 1) >> 3`. -/
def unpack : Nat → Nat → List Int
  | 0, _ => []
  | fuel + 1, x =>
    if x > 0 then (((x - 1) &&& 7 : Nat) : Int) :: unpack fuel ((x - 1) >>> 3) else []

/-- States reachable from `reset_transform` by calls of `set_active_element`
(with any element), of `push_transform` with a son valid for the element active
at the call, and of `pop_transform`, none of which stops: the active element
may change between two pushes. -/
inductive Traversed [Mul α] [Add α] [One α] [Zero α] (tb : Tables α) :
    Transformable α → Prop
  | reset (s : Transformable α) : Traversed tb (reset_transform s)
  | set_active_element (s : Transformable α) (e : Option Element) (hs : Traversed tb s) :
      Traversed tb (set_active_element s e)
  | push (s s' : Transformable α) (son : Int) (e : Element) (hs : Traversed tb s)
      (hel : s.element = some e) (hv : valid_son e son)
      (h : push_transform tb s son = .done s') : Traversed tb s'
  | pop (s s' : Transformable α) (hs : Traversed tb s)
      (h : pop_transform s = .done s') : Traversed tb s'

/-! ## Concrete instances, for evaluating the operations -/

/-- A quadrilateral element. -/
def sample_quad : Element := ⟨0, false⟩

/-- A triangular element. -/
def sample_tri : Element := ⟨1, true⟩

/-- An instance of the table parameter over the rationals: four quarter-size
sons for either shape (the fourth triangle flipped), and for quadrilaterals two
horizontal and two vertical halves. -/
def sample_tables : Tables ℚ where
  tri_trf := fun son =>
    if son = 0 then ⟨(1/2, 1/2), (-1/2, -1/2)⟩
    else if son = 1 then ⟨(1/2, 1/2), (1/2, -1/2)⟩
    else if son = 2 then ⟨(1/2, 1/2), (-1/2, 1/2)⟩
    else if son = 3 then ⟨(-1/2, -1/2), (-1/2, -1/2)⟩
    else ⟨(0, 0), (0, 0)⟩
  quad_trf := fun son =>
    if son = 0 then ⟨(1/2, 1/2), (-1/2, -1/2)⟩
    else if son = 1 then ⟨(1/2, 1/2), (1/2, -1/2)⟩
    else if son = 2 then ⟨(1/2, 1/2), (1/2, 1/2)⟩
    else if son = 3 then ⟨(1/2, 1/2), (-1/2, 1/2)⟩
    else if son = 4 then ⟨(1, 1/2), (0, -1/2)⟩
    else if son = 5 then ⟨(1, 1/2), (0, 1/2)⟩
    else if son = 6 then ⟨(1/2, 1), (-1/2, 0)⟩
    else if son = 7 then ⟨(1/2, 1), (1/2, 0)⟩
    else ⟨(0, 0), (0, 0)⟩

/-- An arbitrary state with a quadrilateral as active element: stale values in
every other member. -/
def sample_state : Transformable ℚ :=
  ⟨some sample_quad, 5, 77, fun _ => ⟨(3, 4), (5, 6)⟩, 9⟩

/-- The state of `sample_state` after a reset and a push of son 2: depth 1. -/
def sample_pushed : Transformable ℚ :=
  (run sample_tables (reset_transform sample_state) [.push 2]).state

/-- The state of `sample_state` after a reset and twenty pushes of son 0:
depth 20, the stack full. -/
def sample_full : Transformable ℚ :=
  (run sample_tables (reset_transform sample_state) (List.replicate 20 (.push 0))).state

/-- An arbitrary state with a triangle as active element. -/
def sample_state_tri : Transformable ℚ :=
  ⟨some sample_tri, 2, 1234, fun _ => ⟨(7, 7), (7, 7)⟩, 3⟩

end Transformable

/-! ## The adaptivity drivers

The `main` functions of examples/bessel, examples/crack and
tests/examples/neutronics-4-group-adapt, reduced to the calls the contract
speaks of.  The numerical layers (assembly, solvers, error estimator,
refinement, DOF numbering) are outside the sources; what they return in each
adaptivity step is a parameter of the model.  A `double` that is only compared
is a rational number. -/

/-- The calls of a driver that are recorded. -/
inductive Event where
  /-- The call `assign_dofs` on the space with the given position in the system. -/
  | assign_dofs (space : Nat)
  /-- The call `assemble` on the coarse system. -/
  | assemble
  /-- The solution of the coarse system (`solve`, `power_iteration`). -/
  | solve
  /-- The call `project_global` on the reference system. -/
  | ref_project
  /-- The call `assemble` on the reference system. -/
  | ref_assemble
  /-- The solution of the reference system. -/
  | ref_solve
  /-- The call `project_global` on the coarse system. -/
  | project
  /-- The computation of the error estimate. -/
  | calc_error
  /-- The call `adapt`. -/
  | adapt
  deriving DecidableEq, Repr

/-- The record of one pass through the body of an adaptivity loop. -/
structure StepLog where
  /-- The error estimate of the step, in percent. -/
  err_est : ℚ
  /-- The total DOF count of the coarse space(s) when the step decides to stop
  or to refine. -/
  ndofs : Int
  /-- The recorded calls of the step, in order. -/
  events : List Event
  /-- The loop ends after this step. -/
  done : Bool
  deriving DecidableEq, Repr

/-- A loop `do { body } while (!done)`: `step` is one pass through the body, from
the state of the driver and what the numerical layers return in that pass; the
list holds the returns of as many passes as are considered. -/
def do_while {σ ρ : Type} (step : σ → ρ → StepLog × σ) : σ → List ρ → List StepLog
  | _, [] => []
  | st, o :: os =>
    let r := step st o
    r.1 :: (if r.1.done then [] else do_while step r.2 os)

/-- The recorded calls of a sequence of steps. -/
def events_of : List StepLog → List Event
  | [] => []
  | l :: ls => l.events ++ events_of ls

namespace Bessel

/-- The constant `ERR_STOP = 0.2`. -/
def ERR_STOP : ℚ := 2 / 10

/-- The constant `NDOF_STOP = 40000`. -/
def NDOF_STOP : Int := 40000

/-- What the numerical layers return in one step. -/
structure StepResult where
  /-- The value of `hp.calc_error(&sln_coarse, &sln_fine) * 100`. -/
  err_est : ℚ
  /-- The value `space.assign_dofs()` returns after `adapt`, the new DOF count. -/
  ndofs : Int

/-- One pass through the body of the adaptivity loop of `main`; the state is the
DOF count of `space`. -/
def step (ndofs : Int) (o : StepResult) : StepLog × Int :=
  let body := [Event.assemble, .solve, .ref_assemble, .ref_solve, .calc_error]
  if o.err_est < ERR_STOP then
    (⟨o.err_est, ndofs, body, true⟩, ndofs)
  else
    let ndofs' := o.ndofs
    (⟨o.err_est, ndofs, body ++ [.adapt, .assign_dofs 0], decide (ndofs' ≥ NDOF_STOP)⟩, ndofs')

/-- The adaptivity loop of `main`. -/
def loop (ndofs : Int) (os : List StepResult) : List StepLog := do_while step ndofs os

/-- The recorded calls of `main`: `space.assign_dofs()`, returning `ndofs`, then
the loop. -/
def main (ndofs : Int) (os : List StepResult) : List Event :=
  [Event.assign_dofs 0] ++ events_of (loop ndofs os)

end Bessel

namespace Crack

/-- The constant `ERR_STOP = 1e-1`. -/
def ERR_STOP : ℚ := 1 / 10

/-- The constant `NDOF_STOP = 40000`. -/
def NDOF_STOP : Int := 40000

/-- What the numerical layers return in one step. -/
structure StepResult where
  /-- The value of `hp.calc_energy_error_2(...) * 100`. -/
  err_est : ℚ
  /-- The value `xdisp.assign_dofs()` returns after `adapt`. -/
  xdofs : Int
  /-- The value `ydisp.assign_dofs(ndofs)` returns after `adapt`. -/
  ydofs : Int

/-- One pass through the body of the adaptivity loop of `main`; the state is the
pair of DOF counts of `xdisp` and `ydisp`. -/
def step (st : Int × Int) (o : StepResult) : StepLog × (Int × Int) :=
  let body := [Event.assemble, .solve, .ref_assemble, .ref_solve, .calc_error]
  if o.err_est < ERR_STOP ∨ st.1 + st.2 ≥ NDOF_STOP then
    (⟨o.err_est, st.1 + st.2, body, true⟩, st)
  else
    let ndofs := o.xdofs
    let ndofs := ndofs + o.ydofs
    (⟨o.err_est, st.1 + st.2, body ++ [.adapt, .assign_dofs 0, .assign_dofs 1],
      decide (ndofs ≥ NDOF_STOP)⟩, (o.xdofs, o.ydofs))

/-- The adaptivity loop of `main`. -/
def loop (st : Int × Int) (os : List StepResult) : List StepLog := do_while step st os

/-- The recorded calls of `main`: `xdisp.assign_dofs()` and
`ydisp.assign_dofs(ndofs)`, returning `st.1` and `st.2`, then the loop. -/
def main (st : Int × Int) (os : List StepResult) : List Event :=
  [Event.assign_dofs 0, Event.assign_dofs 1] ++ events_of (loop st os)

end Crack

namespace Neutronics

/-- The constant `ERR_STOP = 0.05`. -/
def ERR_STOP : ℚ := 5 / 100

/-- The constant `NDOF_STOP = 60000`. -/
def NDOF_STOP : Int := 60000

/-- What the numerical layers return in one step. -/
structure StepResult where
  /-- The value of `hp.calc_error(...) * 100`. -/
  err_est : ℚ
  /-- The value `hp.adapt(...)` returns. -/
  adapt_done : Bool
  /-- The value of `ls.get_num_dofs()` after `adapt`. -/
  ndofs : Int

/-- One pass through the body of the adaptivity loop of `main`; the state is the
step counter `as` and the DOF count of the coarse system.  The `break` is
recorded as the end of the loop.  The flag `SOLVE_ON_COARSE_MESH` is not
defined in the sources and is a parameter. -/
def step (SOLVE_ON_COARSE_MESH : Bool) (st : Int × Int) (o : StepResult) :
    StepLog × (Int × Int) :=
  let ref := (if st.1 = 1 then [Event.ref_project] else []) ++ [.ref_assemble, .ref_solve]
  let coarse :=
    if SOLVE_ON_COARSE_MESH then (if st.1 > 1 then [Event.assemble, .solve] else [])
    else [Event.project]
  let body := ref ++ coarse ++ [.calc_error]
  if o.err_est < ERR_STOP then
    (⟨o.err_est, st.2, body, true⟩, st)
  else
    let done := o.adapt_done
    let done := if o.ndofs ≥ NDOF_STOP then true else done
    (⟨o.err_est, st.2, body ++ [.adapt], done⟩, (st.1 + 1, o.ndofs))

/-- The adaptivity loop of `main`, entered with `as = 1`. -/
def loop (SOLVE_ON_COARSE_MESH : Bool) (ndofs : Int) (os : List StepResult) : List StepLog :=
  do_while (step SOLVE_ON_COARSE_MESH) (1, ndofs) os

end Neutronics

/-! ### The contract of the loops, in its own words -/

/-- The loop ends after a step that sets `done`: such a step is the last. -/
def ends_when_done (steps : List StepLog) : Prop :=
  ∀ pre log post, steps = pre ++ log :: post → log.done = true → post = []

/-- The error stop condition of an adaptivity loop, in the words of the
contract.  `errs` are the error estimates the estimator returns, step by step;
`dofs` are the total DOF counts of the coarse space(s) at the decisions of the
steps (the initial count, then the count assigned by each refining step);
`pre_ceiling` is the DOF ceiling when the driver tests it before refining;
`steps` are the steps the loop runs.  The loop runs a first step as soon as
there is an estimate and goes on after every step that does not end it; each
step takes its estimate and DOF count from these values; a step whose estimate
is below `ERR_STOP` calls neither `adapt` nor `assign_dofs`, sets `done` and is
the last; a step whose estimate is not below `ERR_STOP`, and which the ceiling
does not stop, calls `adapt` exactly once. -/
def error_stop_contract (ERR_STOP : ℚ) (pre_ceiling : Option Int) (errs : List ℚ)
    (dofs : List Int) (steps : List StepLog) : Prop :=
  (errs ≠ [] → steps ≠ []) ∧
  (∀ i log, steps[i]? = some log → log.done = false → i + 1 < errs.length →
    i + 1 < steps.length) ∧
  (∀ i log, steps[i]? = some log →
    ∃ err d, errs[i]? = some err ∧ dofs[i]? = some d ∧
      log.err_est = err ∧ log.ndofs = d ∧
      (err < ERR_STOP →
        Event.adapt ∉ log.events ∧ (∀ sp, Event.assign_dofs sp ∉ log.events) ∧
        log.done = true ∧ steps.length = i + 1) ∧
      (¬ err < ERR_STOP → (∀ c, pre_ceiling = some c → d < c) →
        log.events.count Event.adapt = 1))

/-- No assembly against a stale numbering: every `assemble` of the coarse
system is preceded, for every space of the system, by an `assign_dofs` on that
space with no `adapt` in between. -/
def no_stale_assembly (spaces : List Nat) (trace : List Event) : Prop :=
  ∀ pre post, trace = pre ++ Event.assemble :: post →
    ∀ sp ∈ spaces, ∃ a b, pre = a ++ Event.assign_dofs sp :: b ∧ Event.adapt ∉ b

/-- A monitor for `no_stale_assembly`: it runs through a trace with the list of
the spaces numbered since the last `adapt`, and gives that list at the end, or
nothing when an `assemble` finds a space missing from it. -/
def monitor (spaces : List Nat) : List Nat → List Event → Option (List Nat)
  | fresh, [] => some fresh
  | fresh, ev :: t =>
    match ev with
    | .adapt => monitor spaces [] t
    | .assign_dofs sp => monitor spaces (sp :: fresh) t
    | .assemble =>
      if spaces.all (fun sp => decide (sp ∈ fresh)) then monitor spaces fresh t else none
    | _ => monitor spaces fresh t

/-! ## The line-singularity test -/

namespace LineSingularity

/-- The macro `ERROR_SUCCESS`. -/
def ERROR_SUCCESS : Int := 0

/-- The macro `ERROR_FAILURE`. -/
def ERROR_FAILURE : Int := -1

/-- The end of `main`: the value returned, from `ndof = get_num_dofs(&space)`
after the adaptive solve. -/
def main (ndof : Int) : Int :=
  let n_dof_allowed : Int := 150
  if ndof ≤ n_dof_allowed then ERROR_SUCCESS else ERROR_FAILURE

end LineSingularity

/-! ## Boundary conditions of the bessel example -/

/-- Modelled from the spec: the kinds of boundary condition.  `BC_ESSENTIAL` and
`BC_NATURAL` are constants of hermes2d.h, which is not among the sources; they
are taken as two distinct values. -/
inductive BCType where
  | BC_ESSENTIAL
  | BC_NATURAL
  deriving DecidableEq, Repr

/-- The struct `EdgePos`, of which the forms read the boundary marker only. -/
structure EdgePos where
  marker : Int
  deriving DecidableEq, Repr

namespace Bessel

/-- The function `bc_types`. -/
def bc_types (marker : Int) : BCType :=
  if marker = 1 ∨ marker = 6 then BCType.BC_ESSENTIAL else BCType.BC_NATURAL

/-- The function `bc_values`; `impedance` stands for the value the last lines
compute from the Bessel functions. -/
def bc_values {κ δ : Type} [Zero κ] (impedance : Int → δ → δ → κ) (marker : Int) (x y : δ) : κ :=
  if marker = 1 ∨ marker = 6 then 0 else impedance marker x y

/-- The function `bilinear_form_surf`; `integral` stands for
`complex(0.0, -kappa * surf_int_e_tau_f_tau(fu, fv, ru, rv, ep))`. -/
def bilinear_form_surf {κ : Type} [Zero κ] (integral : EdgePos → κ) (ep : EdgePos) : κ :=
  if ep.marker = 1 ∨ ep.marker = 6 then 0 else integral ep

/-- The function `linear_form_surf`; `integral` stands for
`surf_int_G_tau_f_tau(fv, refmap, ep)`. -/
def linear_form_surf {κ : Type} [Zero κ] (integral : EdgePos → κ) (ep : EdgePos) : κ :=
  if ep.marker = 1 ∨ ep.marker = 6 then 0 else integral ep

end Bessel

/-! ## The saving-data tutorial -/

namespace SavingData

/-- The global `OUTPUT_FREQUENCY = 20`. -/
def OUTPUT_FREQUENCY : Int := 20

/-- The constant `TAU = 300.0`. -/
def TAU : ℚ := 300

/-- The constant `FINAL_TIME = 18000`. -/
def FINAL_TIME : ℚ := 18000

/-- The conversion `(int) x` of C: truncation toward zero. -/
def to_int (x : ℚ) : Int := if 0 ≤ x then ⌊x⌋ else ⌈x⌉

/-- The local `nsteps = (int)(FINAL_TIME/TAU + 0.5)`. -/
def nsteps : Int := to_int (FINAL_TIME / TAU + 1 / 2)

/-- The calls of `main` that are recorded. -/
inductive Action where
  /-- The call `lp.assemble` of time step `ts`. -/
  | assemble (ts : Int)
  /-- The call `solver->solve` of time step `ts`. -/
  | solve (ts : Int)
  /-- The call `lin.save_data(filename)`. -/
  | save_data (filename : String)
  /-- The call `Tview.lin.load_data(filename)`. -/
  | load_data (filename : String)
  deriving DecidableEq, Repr

/-- The name `sprintf(filename, "tsln_%d.lin", ts)` writes. -/
def filename (ts : Int) : String := "tsln_" ++ toString ts ++ ".lin"

/-- The body of the time loop at step `ts`, the solver having succeeded. -/
def body (ts : Int) : List Action :=
  [Action.assemble ts, Action.solve ts] ++
    (if Int.tmod ts OUTPUT_FREQUENCY = 0 then [Action.save_data (filename ts)] else [])

/-- The loop `for (int ts = 1; ts <= nsteps; ts++)` from the value `ts` on, with
fuel for `fuel` passes; `solver_ok ts` is what `solver->solve` returns in step
`ts`, and a failure stops the program (`error`).  The result is the recorded
calls and the value of `ts` at the end. -/
def time_loop (solver_ok : Int → Bool) (n : Int) : Nat → Int → Option (List Action × Int)
  | 0, ts => some ([], ts)
  | fuel + 1, ts =>
    if ts ≤ n then
      if solver_ok ts then
        match time_loop solver_ok n fuel (ts + 1) with
        | some (calls, last) => some (body ts ++ calls, last)
        | none => none
      else none
    else some ([], ts)

/-- The recorded calls of `main`: the time loop, then the loading of
`tsln_60.lin`; with them the value of `ts` when the loop is left. -/
def main (solver_ok : Int → Bool) : Option (List Action × Int) :=
  match time_loop solver_ok nsteps nsteps.toNat 1 with
  | some (calls, last) => some (calls ++ [Action.load_data ("tsln_60.lin")], last)
  | none => none

/-- The files written by a sequence of calls, in order. -/
def saved_files : List Action → List String
  | [] => []
  | Action.save_data f :: rest => f :: saved_files rest
  | _ :: rest => saved_files rest

/-- The time steps solved by a sequence of calls, in order. -/
def solved_steps : List Action → List Int
  | [] => []
  | Action.solve ts :: rest => ts :: solved_steps rest
  | _ :: rest => solved_steps rest

end SavingData

/-! ## The flame tutorial -/

namespace Flame

/-- The two spaces of `main`. -/
inductive SpaceId where
  | tspace
  | cspace
  deriving DecidableEq, Repr

/-- Modelled from the spec: a `Solution`, declared outside the sources, is a
"coefficient vector ... bound to a specific (Mesh, Space) pair"; the mesh is the
same throughout `main`. -/
structure Solution (V : Type) where
  space : SpaceId
  coeff_vec : V
  deriving DecidableEq, Repr

/-- Modelled from the spec: the method `set_fe_solution(space, vec)`, which
makes a solution the one with coefficient vector `vec` on `space`. -/
def set_fe_solution {V : Type} (space : SpaceId) (vec : V) : Solution V := ⟨space, vec⟩

/-- The constant `TAU = 0.5`. -/
def TAU : ℚ := 1 / 2

/-- The constant `T_FINAL = 60.0`. -/
def T_FINAL : ℚ := 60

/-- The variables of `main` that the time stepping loop changes. -/
structure State (V : Type) where
  t_prev_time_1 : Solution V
  c_prev_time_1 : Solution V
  t_prev_time_2 : Solution V
  c_prev_time_2 : Solution V
  t_prev_newton : Solution V
  c_prev_newton : Solution V
  coeff_vec : V
  current_time : ℚ
  ts : Int

/-- One pass through the body of the time stepping loop.  `newton` is what
`solve_newton` leaves in `coeff_vec`, or nothing when it does not converge and
`error` stops the program. -/
def step {V : Type} (st : State V) (newton : Option V) : Option (State V) :=
  match newton with
  | none => none
  | some v =>
    let st := { st with coeff_vec := v }
    let st := { st with t_prev_newton := set_fe_solution SpaceId.tspace st.coeff_vec }
    let st := { st with c_prev_newton := set_fe_solution SpaceId.cspace st.coeff_vec }
    let st := { st with current_time := st.current_time + TAU }
    let st := { st with t_prev_time_2 := st.t_prev_time_1 }
    let st := { st with c_prev_time_2 := st.c_prev_time_1 }
    let st := { st with t_prev_time_1 := set_fe_solution SpaceId.tspace st.coeff_vec }
    let st := { st with c_prev_time_1 := set_fe_solution SpaceId.cspace st.coeff_vec }
    some { st with ts := st.ts + 1 }

/-- The loop `do { ... } while (current_time <= T_FINAL)` over the results of
as many Newton solves as are considered. -/
def loop {V : Type} : State V → List (Option V) → Option (State V)
  | st, [] => some st
  | st, r :: rs =>
    match step st r with
    | none => none
    | some st' => if st'.current_time ≤ T_FINAL then loop st' rs else some st'

end Flame

/-! ## The parameters of the neutronics test -/

/-- The lists of refinement candidates named in the sources. -/
inductive CandList where
  | H2D_P_ISO
  | H2D_P_ANISO
  | H2D_H_ISO
  | H2D_H_ANISO
  | H2D_HP_ISO
  | H2D_HP_ANISO_H
  | H2D_HP_ANISO_P
  | H2D_HP_ANISO
  deriving DecidableEq, Repr

namespace Neutronics

/-- The parameters the documentation of the test lists. -/
structure Parameters where
  P_INIT : List Int
  INIT_REF_NUM : List Int
  THRESHOLD : ℚ
  STRATEGY : Int
  CAND_LIST : CandList
  MESH_REGULARITY : Int
  ERR_STOP : ℚ
  CONV_EXP : ℚ
  NDOF_STOP : Int

/-- The constant `INIT_REF_NUM[4] = {1, 1, 1, 1}`. -/
def INIT_REF_NUM : List Int := [1, 1, 1, 1]

/-- The constant `P_INIT[4] = {1, 1, 1, 1}`. -/
def P_INIT : List Int := [1, 1, 1, 1]

/-- The constant `THRESHOLD = 0.3`. -/
def THRESHOLD : ℚ := 3 / 10

/-- The constant `STRATEGY = 1`. -/
def STRATEGY : Int := 1

/-- The constant `CAND_LIST = H2D_HP_ANISO`. -/
def CAND_LIST : CandList := CandList.H2D_HP_ANISO

/-- The constant `MESH_REGULARITY = -1`. -/
def MESH_REGULARITY : Int := -1

/-- The constant `CONV_EXP = 1.0`. -/
def CONV_EXP : ℚ := 1

/-- The parameters the test code defines. -/
def in_code : Parameters :=
  ⟨P_INIT, INIT_REF_NUM, THRESHOLD, STRATEGY, CAND_LIST, MESH_REGULARITY, ERR_STOP, CONV_EXP,
    NDOF_STOP⟩

/-- The parameters of the section "Parameters" of the documentation comment of
the test, with `P_INIT=1` and `INIT_REF_NUM=1` for every solution component. -/
def documented : Parameters :=
  ⟨[1, 1, 1, 1], [1, 1, 1, 1], 3 / 10, 0, CandList.H2D_HP_ANISO_P, -1, 4, 1, 40000⟩

end Neutronics

namespace Transformable

variable {α : Type}

/-! ## Auxiliary lemmas -/

section lemmas

theorem reset_stack_zero [One α] [Zero α] (s : Transformable α) :
    (reset_transform s).stack 0 = identity_trf := by
  simp [reset_transform, write_m0, write_m1, write_t0, write_t1, identity_trf]

theorem reset_tracks [Mul α] [Add α] [One α] [Zero α] (tb : Tables α) (e : Element) (s : Transformable α)
    (h : s.element = some e) : Tracks tb e (reset_transform s) [] := by
  refine ⟨h, rfl, by simp, rfl, rfl, by simp, ?_⟩
  intro i hi
  have hi0 : i = 0 := by simpa using hi
  subst hi0
  simpa [path_trf] using reset_stack_zero s

/-- What a push does to a state whose `ctm` points at `stack[top]`. -/
theorem push_eq [Mul α] [Add α] (tb : Tables α) (e : Element) (s : Transformable α)
    (son : Int)
    (hel : s.element = some e) (htop : s.top < 20) (hctm : s.ctm = s.top) :
    push_transform tb s son = .done
      { s with
        stack := fun j => if j = s.top + 1 then compose (s.stack s.top) (son_trf tb e son)
          else s.stack j
        top := s.top + 1
        ctm := s.top + 1
        sub_idx := (((s.sub_idx <<< 3) % UINT64_MOD + to_uint64 son) % UINT64_MOD + 1)
          % UINT64_MOD } := by
  have hnot : ¬ s.top ≥ 20 := by omega
  simp only [push_transform, hel, hnot, if_false, hctm]
  congr 2
  funext j
  by_cases hj : j = s.top + 1
  · subst hj
    simp [write_m0, write_m1, write_t0, write_t1, compose, son_trf]
  · simp [write_m0, write_m1, write_t0, write_t1, hj]

theorem encode_append (sons : List Int) (son : Int) :
    encode (sons ++ [son]) = 8 * encode sons + son.toNat + 1 := by
  simp [encode, List.foldl_append]

theorem path_trf_append [Mul α] [Add α] [One α] [Zero α] (tb : Tables α) (e : Element)
    (sons : List Int) (son : Int) :
    path_trf tb e (sons ++ [son]) = compose (path_trf tb e sons) (son_trf tb e son) := by
  simp [path_trf, List.foldl_append]

theorem valid_son_le (e : Element) (son : Int) (h : valid_son e son) : 0 ≤ son ∧ son ≤ 7 := by
  unfold valid_son at h
  split at h <;> omega

/-- Size of the path index of a sequence of sons in `0..7`. -/
theorem encode_bound (sons : List Int) (h : ∀ son ∈ sons, 0 ≤ son ∧ son ≤ 7) :
    7 * encode sons + 8 ≤ 8 ^ (sons.length + 1) := by
  induction sons using List.reverseRecOn with
  | nil => simp [encode]
  | append_singleton l a ih =>
    have hl : ∀ son ∈ l, 0 ≤ son ∧ son ≤ 7 := fun x hx => h x (by simp [hx])
    have ha := h a (by simp)
    have := ih hl
    rw [encode_append, List.length_append, List.length_singleton, pow_succ]
    omega

/-- The index arithmetic of `push_transform` is exact below `2^64`. -/
theorem push_idx_exact (i : Nat) (son : Int) (hi : 8 * i + 8 < 2 ^ 64)
    (hs : 0 ≤ son ∧ son ≤ 7) :
    (((i <<< 3) % UINT64_MOD + to_uint64 son) % UINT64_MOD + 1) % UINT64_MOD
      = 8 * i + son.toNat + 1 := by
  have h1 : to_uint64 son = son.toNat := by
    unfold to_uint64 UINT64_MOD
    congr 1
    apply Int.emod_eq_of_lt hs.1
    norm_num
    omega
  rw [h1, Nat.shiftLeft_eq]
  unfold UINT64_MOD
  omega

/-- The index arithmetic of `pop_transform` inverts that of `push_transform`. -/
theorem pop_idx_exact (i : Nat) (son : Int) (hi : 8 * i + 8 < 2 ^ 64)
    (hs : 0 ≤ son ∧ son ≤ 7) :
    ((8 * i + son.toNat + 1 + (UINT64_MOD - 1)) % UINT64_MOD) >>> 3 = i := by
  rw [Nat.shiftRight_eq_div_pow]
  unfold UINT64_MOD
  omega

/-- A push of a valid son below depth 20 extends the tracked sequence. -/
theorem push_tracks [Mul α] [Add α] [One α] [Zero α] (tb : Tables α) (e : Element)
    (s : Transformable α) (sons : List Int) (son : Int)
    (ht : Tracks tb e s sons) (hv : valid_son e son) (hlen : sons.length < 20) :
    ∃ s', push_transform tb s son = .done s' ∧ Tracks tb e s' (sons ++ [son]) ∧
      s'.top = s.top + 1 ∧ s'.element = s.element ∧
      ∀ j : Int, j ≤ s.top → s'.stack j = s.stack j := by
  obtain ⟨hel, htop, hl, hctm, hidx, hval, hstk⟩ := ht
  have hlt : s.top < 20 := by omega
  refine ⟨_, push_eq tb e s son hel hlt hctm, ?_, rfl, rfl, ?_⟩
  · have hson := valid_son_le e son hv
    have hb := encode_bound sons (fun x hx => valid_son_le e x (hval x hx))
    have hp : 8 ^ (sons.length + 1) ≤ 8 ^ 20 := Nat.pow_le_pow_right (by norm_num) (by omega)
    refine ⟨hel, ?_, ?_, rfl, ?_, ?_, ?_⟩
    · simp [htop]
    · simp; omega
    · show (((s.sub_idx <<< 3) % UINT64_MOD + to_uint64 son) % UINT64_MOD + 1) % UINT64_MOD
        = encode (sons ++ [son])
      rw [encode_append, hidx]
      exact push_idx_exact _ son (by norm_num at hp ⊢; omega) hson
    · intro x hx
      rcases List.mem_append.1 hx with hx | hx
      · exact hval x hx
      · simp at hx; subst hx; exact hv
    · intro i hi
      simp only [List.length_append, List.length_singleton] at hi
      by_cases hi' : i ≤ sons.length
      · have hne : ¬ ((i : Int) = s.top + 1) := by omega
        simp only [hne, if_false]
        rw [List.take_append_of_le_length hi']
        exact hstk i hi'
      · have hieq : i = sons.length + 1 := by omega
        have heq : ((i : Int) = s.top + 1) := by omega
        simp only [heq, if_true]
        have htake : (sons ++ [son]).take i = sons ++ [son] := by
          apply List.take_of_length_le
          simp [hieq]
        rw [htake, path_trf_append]
        have := hstk sons.length le_rfl
        rw [List.take_length] at this
        rw [← this, htop]
  · intro j hj
    have hne : ¬ (j = s.top + 1) := by omega
    simp only [hne, if_false]

/-- What a pop does above depth 0. -/
theorem pop_eq (s : Transformable α) (hpos : s.top > 0) :
    pop_transform s = .done
      { s with
        top := s.top - 1
        ctm := s.top - 1
        sub_idx := ((s.sub_idx + (UINT64_MOD - 1)) % UINT64_MOD) >>> 3 } := by
  simp only [pop_transform, hpos, if_true]

/-- A pop above depth 0 removes the last son of the tracked sequence. -/
theorem pop_tracks [Mul α] [Add α] [One α] [Zero α] (tb : Tables α) (e : Element)
    (s : Transformable α) (sons : List Int) (son : Int)
    (ht : Tracks tb e s (sons ++ [son])) :
    ∃ s', pop_transform s = .done s' ∧ Tracks tb e s' sons ∧ s'.stack = s.stack ∧
      s'.top = s.top - 1 ∧ s'.element = s.element := by
  obtain ⟨hel, htop, hl, hctm, hidx, hval, hstk⟩ := ht
  simp only [List.length_append, List.length_singleton] at htop hl
  have hpos : s.top > 0 := by omega
  refine ⟨_, pop_eq s hpos, ?_, rfl, rfl, rfl⟩
  have hvs : ∀ x ∈ sons, valid_son e x := fun x hx => hval x (by simp [hx])
  have hson := valid_son_le e son (hval son (by simp))
  have hb := encode_bound sons (fun x hx => valid_son_le e x (hvs x hx))
  have hp : 8 ^ (sons.length + 1) ≤ 8 ^ 20 := Nat.pow_le_pow_right (by norm_num) (by omega)
  refine ⟨hel, ?_, by omega, rfl, ?_, hvs, ?_⟩
  · show s.top - 1 = _
    rw [htop]; push_cast; ring
  · show ((s.sub_idx + (UINT64_MOD - 1)) % UINT64_MOD) >>> 3 = encode sons
    rw [hidx, encode_append]
    exact pop_idx_exact _ son (by norm_num at hp ⊢; omega) hson
  · intro i hi
    have := hstk i (by simp; omega)
    rw [List.take_append_of_le_length hi] at this
    exact this

/-- A completed push started below depth 20 with an element set. -/
theorem push_done_inv [Mul α] [Add α] (tb : Tables α) (s s' : Transformable α) (son : Int)
    (h : push_transform tb s son = .done s') : s.top < 20 ∧ s.element ≠ none := by
  unfold push_transform at h
  split at h
  · cases h
  · split at h
    · cases h
    · rename_i e he _
      exact ⟨by omega, by simp [he]⟩

/-- A completed pop started above depth 0. -/
theorem pop_done_inv (s s' : Transformable α) (h : pop_transform s = .done s') : s.top > 0 := by
  unfold pop_transform at h
  split at h
  · assumption
  · cases h

/-- One non-stopping call with a valid son keeps the state tracked. -/
theorem step_tracks [Mul α] [Add α] [One α] [Zero α] (tb : Tables α) (e : Element)
    (s s' : Transformable α) (sons : List Int) (c : Call)
    (ht : Tracks tb e s sons) (hv : ∀ son, c = .push son → valid_son e son)
    (h : step tb s c = .done s') : ∃ sons', Tracks tb e s' sons' := by
  cases c with
  | push son =>
    have hlt := (push_done_inv tb s s' son h).1
    have hlen : sons.length < 20 := by have := ht.2.1; omega
    obtain ⟨s'', h1, h2, -⟩ := push_tracks tb e s sons son ht (hv son rfl) hlen
    have : s'' = s' := by
      have h' : push_transform tb s son = .done s' := h
      rw [h1] at h'; exact Outcome.done.inj h'
    exact ⟨_, this ▸ h2⟩
  | pop =>
    have hpos := pop_done_inv s s' h
    rcases List.eq_nil_or_concat sons with hnil | ⟨q, a, hq⟩
    · have := ht.2.1; simp [hnil] at this; omega
    · rw [List.concat_eq_append] at hq
      subst hq
      obtain ⟨s'', h1, h2, -⟩ := pop_tracks tb e s q a ht
      have : s'' = s' := by
        have h' : pop_transform s = .done s' := h
        rw [h1] at h'; exact Outcome.done.inj h'
      exact ⟨_, this ▸ h2⟩

/-- Every reachable state tracks some son sequence. -/
theorem reachable_tracks [Mul α] [Add α] [One α] [Zero α] (tb : Tables α) (e : Element)
    (s : Transformable α) (h : Reachable tb e s) : ∃ sons, Tracks tb e s sons := by
  induction h with
  | reset s0 h0 => exact ⟨[], reset_tracks tb e s0 h0⟩
  | push s1 s2 son _ hv hp ih =>
    obtain ⟨sons, ht⟩ := ih
    exact step_tracks tb e s1 s2 sons (.push son) ht (fun x hx => by cases hx; exact hv) hp
  | pop s1 s2 _ hp ih =>
    obtain ⟨sons, ht⟩ := ih
    exact step_tracks tb e s1 s2 sons .pop ht (fun x hx => by cases hx) hp

/-- A non-stopping run of calls with valid sons leads from a reachable state to
a reachable state. -/
theorem run_reachable [Mul α] [Add α] [One α] [Zero α] (tb : Tables α) (e : Element)
    (calls : List Call) (s s' : Transformable α) (hs : Reachable tb e s)
    (hv : ∀ son, Call.push son ∈ calls → valid_son e son)
    (h : run tb s calls = .done s') : Reachable tb e s' := by
  induction calls generalizing s with
  | nil => simp only [run] at h; cases h; exact hs
  | cons c cs ih =>
    simp only [run] at h
    split at h
    · rename_i s1 hstep
      refine ih s1 ?_ (fun son hson => hv son (by simp [hson])) h
      cases c with
      | push son => exact Reachable.push s s1 son hs (hv son (by simp)) hstep
      | pop => exact Reachable.pop s s1 hs hstep
    · cases h

/-- Pushing a sequence of valid sons that fits on the stack completes and
extends the tracked sequence. -/
theorem run_pushes_tracks [Mul α] [Add α] [One α] [Zero α] (tb : Tables α) (e : Element)
    (S : List Int) (s : Transformable α) (sons : List Int)
    (ht : Tracks tb e s sons) (hv : ∀ x ∈ S, valid_son e x)
    (hlen : sons.length + S.length ≤ 20) :
    ∃ r, run tb s (S.map Call.push) = .done r ∧ Tracks tb e r (sons ++ S) := by
  induction S generalizing s sons with
  | nil => exact ⟨s, rfl, by simpa using ht⟩
  | cons a S ih =>
    simp only [List.length_cons] at hlen
    obtain ⟨s1, h1, ht1, -⟩ :=
      push_tracks tb e s sons a ht (hv a (by simp)) (by omega)
    obtain ⟨r, h2, ht2⟩ := ih s1 (sons ++ [a]) ht1 (fun x hx => hv x (by simp [hx]))
      (by simp; omega)
    refine ⟨r, ?_, by simpa using ht2⟩
    simp only [List.map_cons, run, step, h1]
    exact h2

/-- The last son and the remaining index, read back from a path index. -/
theorem decode_step (i : Nat) (a : Int) (ha : 0 ≤ a ∧ a ≤ 7) :
    (8 * i + a.toNat + 1 - 1) >>> 3 = i ∧
    (((8 * i + a.toNat + 1 - 1) &&& 7 : Nat) : Int) = a := by
  constructor
  · rw [Nat.shiftRight_eq_div_pow]; omega
  · have h7 : (7 : Nat) = 2 ^ 3 - 1 := by norm_num
    rw [h7, Nat.and_pow_two_sub_one_eq_mod]
    omega

/-- Decoding inverts encoding, given fuel for every level. -/
theorem decode_aux_encode (S : List Int) (h : ∀ son ∈ S, 0 ≤ son ∧ son ≤ 7) :
    ∀ (fuel : Nat) (acc : List Int), S.length ≤ fuel →
      decode_aux fuel (encode S) acc = S ++ acc := by
  induction S using List.reverseRecOn with
  | nil =>
    intro fuel acc _
    cases fuel <;> simp [decode_aux, encode]
  | append_singleton l a ih =>
    intro fuel acc hf
    have hl : ∀ son ∈ l, 0 ≤ son ∧ son ≤ 7 := fun x hx => h x (by simp [hx])
    have ha := h a (by simp)
    simp only [List.length_append, List.length_singleton] at hf
    obtain ⟨n, rfl⟩ : ∃ n, fuel = n + 1 := ⟨fuel - 1, by omega⟩
    have hpos : encode (l ++ [a]) > 0 := by rw [encode_append]; omega
    obtain ⟨h1, h2⟩ := decode_step (encode l) a ha
    rw [decode_aux, if_pos hpos, encode_append, h1, h2, ih hl n (a :: acc) (by omega)]
    simp

/-- The decoding loop has ended once the index is below `8 ^ fuel`: more fuel
changes nothing. -/
theorem decode_aux_fuel (fuel : Nat) :
    ∀ (idx : Nat) (acc : List Int) (k : Nat), idx < 8 ^ fuel →
      decode_aux (fuel + k) idx acc = decode_aux fuel idx acc := by
  induction fuel with
  | zero =>
    intro idx acc k h
    have h0 : idx = 0 := by simpa using h
    subst h0
    cases k <;> simp [decode_aux]
  | succ n ih =>
    intro idx acc k h
    have hk : n + 1 + k = (n + k) + 1 := by omega
    rw [hk, decode_aux, decode_aux]
    by_cases hpos : idx > 0
    · rw [if_pos hpos, if_pos hpos]
      apply ih
      rw [Nat.shiftRight_eq_div_pow]
      rw [pow_succ] at h
      omega
    · rw [if_neg hpos, if_neg hpos]

/-- On every `uint64` value the 22 rounds of `decode` run the loop to its end. -/
theorem decode_total (idx : Nat) (h : idx < UINT64_MOD) (k : Nat) :
    decode_aux (MAX_LEVELS + k) idx [] = decode idx := by
  unfold decode
  apply decode_aux_fuel
  unfold UINT64_MOD at h
  unfold MAX_LEVELS
  have : (2 : Nat) ^ 64 < 8 ^ 22 := by norm_num
  omega

/-- On the sons of at most 22 levels, `decode` inverts `encode`. -/
theorem decode_encode (S : List Int) (h : ∀ son ∈ S, 0 ≤ son ∧ son ≤ 7)
    (hlen : S.length ≤ 22) : decode (encode S) = S := by
  have := decode_aux_encode S h MAX_LEVELS [] hlen
  simpa [decode] using this

/-- The path index determines the son sequence. -/
theorem encode_injective (S T : List Int) (hS : ∀ son ∈ S, 0 ≤ son ∧ son ≤ 7)
    (hT : ∀ son ∈ T, 0 ≤ son ∧ son ≤ 7) (h : encode S = encode T) : S = T := by
  have h1 := decode_aux_encode S hS (S.length + T.length) [] (by omega)
  have h2 := decode_aux_encode T hT (S.length + T.length) [] (by omega)
  rw [h] at h1
  rw [h1] at h2
  simpa using h2

/-- The son transform depends on the element through its shape only. -/
theorem path_trf_shape [Mul α] [Add α] [One α] [Zero α] (tb : Tables α) (e1 e2 : Element)
    (h : e1.is_triangle = e2.is_triangle) (S : List Int) :
    path_trf tb e1 S = path_trf tb e2 S := by
  simp [path_trf, son_trf, h]

/-- What a tracked state shows to its callers. -/
theorem tracks_view [Mul α] [Add α] [One α] [Zero α] (tb : Tables α) (e : Element)
    (s : Transformable α) (S : List Int) (ht : Tracks tb e s S) :
    get_ctm s = path_trf tb e S ∧ get_depth s = S.length ∧ get_transform s = encode S := by
  obtain ⟨-, htop, -, hctm, hidx, -, hstk⟩ := ht
  refine ⟨?_, htop, hidx⟩
  have := hstk S.length le_rfl
  rw [List.take_length] at this
  rw [get_ctm, hctm, htop, this]

/-- A newly constructed object whose active element has been set is in a
reachable state. -/
theorem reachable_after_ctor [Mul α] [Add α] [One α] [Zero α] (tb : Tables α) (e : Element)
    (raw : Transformable α) : Reachable tb e (set_active_element (ctor raw) (some e)) := by
  have h : Reachable tb e (reset_transform
      { raw with stack := fun _ => ⟨(0, 0), (0, 0)⟩, element := some e }) :=
    Reachable.reset _ rfl
  exact h

end lemmas

/-! ## The contract -/

/-- C1 (round-trip law): a sequence of at most 20 `push_transform` /
`pop_transform` calls, run after `reset_transform` with an active element set
and every son valid for it, none of the calls stopping, that ends at depth 0
leaves the identity as current transform (scale (1,1), translation (0,0)) and
path index 0. -/
theorem round_trip [Mul α] [Add α] [One α] [Zero α] (tb : Tables α) (e : Element)
    (s0 s : Transformable α) (calls : List Call)
    (hel : s0.element = some e) (_hlen : calls.length ≤ 20)
    (hvalid : ∀ son, Call.push son ∈ calls → valid_son e son)
    (hrun : run tb (reset_transform s0) calls = .done s)
    (hdepth : get_depth s = 0) :
    get_ctm s = ⟨(1, 1), (0, 0)⟩ ∧ get_transform s = 0 := by
  have hr := run_reachable tb e calls _ s (Reachable.reset s0 hel) hvalid hrun
  obtain ⟨sons, -, htop, -, hctm, hidx, -, hstk⟩ := reachable_tracks tb e s hr
  have h0 : s.top = 0 := hdepth
  have hnil : sons = [] := by
    apply List.eq_nil_of_length_eq_zero
    omega
  subst hnil
  constructor
  · have := hstk 0 le_rfl
    simpa [get_ctm, hctm, h0, path_trf, identity_trf] using this
  · simpa [get_transform, encode] using hidx

/-- The round-trip law on a quadrilateral: two pushes and two pops after a
reset of a stale state. -/
theorem round_trip_witness :
    ∃ s, run sample_tables (reset_transform sample_state)
        [.push 2, .push 5, .pop, .pop] = .done s ∧
      get_depth s = 0 ∧ get_ctm s = ⟨(1, 1), (0, 0)⟩ ∧ get_transform s = 0 :=
  ⟨_, rfl, rfl,
    round_trip sample_tables sample_quad sample_state _ [.push 2, .push 5, .pop, .pop]
      rfl (by decide)
      (by intro son h; simp at h; rcases h with rfl | rfl <;> decide) rfl rfl⟩

/-- C2 (pop undoes push): from a state reachable after `reset_transform` with
an active element set and depth below 20, `push_transform(son)` with a valid
son followed by `pop_transform()` both complete and give back the current
transform, the path index and the depth held before the push. -/
theorem pop_undoes_push [Mul α] [Add α] [One α] [Zero α] (tb : Tables α) (e : Element)
    (s : Transformable α) (son : Int)
    (hs : Reachable tb e s) (hd : get_depth s < 20) (hv : valid_son e son) :
    ∃ s1 s2, push_transform tb s son = .done s1 ∧ pop_transform s1 = .done s2 ∧
      get_ctm s2 = get_ctm s ∧ get_transform s2 = get_transform s ∧
      get_depth s2 = get_depth s := by
  obtain ⟨sons, ht⟩ := reachable_tracks tb e s hs
  have hlen : sons.length < 20 := by
    have h1 := ht.2.1
    have h2 : s.top < 20 := hd
    omega
  obtain ⟨s1, hpush, ht1, htop1, -, hstk1⟩ := push_tracks tb e s sons son ht hv hlen
  obtain ⟨s2, hpop, ht2, hstk2, htop2, -⟩ := pop_tracks tb e s1 sons son ht1
  refine ⟨s1, s2, hpush, hpop, ?_, ?_, ?_⟩
  · have hc2 : s2.ctm = s2.top := ht2.2.2.2.1
    have hc : s.ctm = s.top := ht.2.2.2.1
    have ht2s : s2.top = s.top := by omega
    simp only [get_ctm, hc2, hc, ht2s, hstk2]
    exact hstk1 s.top le_rfl
  · simp only [get_transform, ht2.2.2.2.2.1, ht.2.2.2.2.1]
  · simp only [get_depth]; omega

/-- Push then pop at depth 1 of a quadrilateral: the transform of son 2, the
index 3 and the depth 1 come back. -/
theorem pop_undoes_push_witness :
    Reachable sample_tables sample_quad sample_pushed ∧ get_depth sample_pushed = 1 ∧
    valid_son sample_quad 7 ∧
    ∃ s1 s2, push_transform sample_tables sample_pushed 7 = .done s1 ∧
      pop_transform s1 = .done s2 ∧
      get_ctm s2 = get_ctm sample_pushed ∧ get_transform s2 = get_transform sample_pushed ∧
      get_depth s2 = get_depth sample_pushed :=
  have hr : Reachable sample_tables sample_quad sample_pushed :=
    Reachable.push _ _ 2 (Reachable.reset sample_state rfl) (by decide) rfl
  ⟨hr, rfl, by decide, pop_undoes_push sample_tables sample_quad sample_pushed 7 hr
    (by decide) (by decide)⟩

/-- C3 (push composes): from a reachable state below depth 20,
`push_transform(son)` completes, and with `tr = tri_trf[son]` for a triangle
and `quad_trf[son]` otherwise the new current transform has
`m[k] = old.m[k] * tr.m[k]` and `t[k] = old.m[k] * tr.t[k] + old.t[k]` for
`k = 0, 1`.  It holds for every scalar type, exact arithmetic included. -/
theorem push_composes [Mul α] [Add α] [One α] [Zero α] (tb : Tables α) (e : Element)
    (s : Transformable α) (son : Int)
    (hs : Reachable tb e s) (hd : get_depth s < 20) :
    ∃ s', push_transform tb s son = .done s' ∧
      (get_ctm s').m.1
        = (get_ctm s).m.1 * (if e.is_triangle then tb.tri_trf son else tb.quad_trf son).m.1 ∧
      (get_ctm s').m.2
        = (get_ctm s).m.2 * (if e.is_triangle then tb.tri_trf son else tb.quad_trf son).m.2 ∧
      (get_ctm s').t.1
        = (get_ctm s).m.1 * (if e.is_triangle then tb.tri_trf son else tb.quad_trf son).t.1
          + (get_ctm s).t.1 ∧
      (get_ctm s').t.2
        = (get_ctm s).m.2 * (if e.is_triangle then tb.tri_trf son else tb.quad_trf son).t.2
          + (get_ctm s).t.2 := by
  obtain ⟨sons, ht⟩ := reachable_tracks tb e s hs
  have hc : s.ctm = s.top := ht.2.2.2.1
  refine ⟨_, push_eq tb e s son ht.1 hd hc, ?_⟩
  simp [get_ctm, hc, compose, son_trf]

/-- Son 5 (a horizontal half) pushed at depth 1 of a quadrilateral, on top of
son 2: scale (1/2, 1/4) and translation (1/2, 3/4). -/
theorem push_composes_witness :
    Reachable sample_tables sample_quad sample_pushed ∧ get_depth sample_pushed = 1 ∧
    get_ctm sample_pushed = ⟨(1/2, 1/2), (1/2, 1/2)⟩ ∧
    sample_tables.quad_trf 5 = ⟨(1, 1/2), (0, 1/2)⟩ ∧
    ∃ s', push_transform sample_tables sample_pushed 5 = .done s' ∧
      (get_ctm s').m.1 = 1/2 ∧ (get_ctm s').m.2 = 1/4 ∧
      (get_ctm s').t.1 = 1/2 ∧ (get_ctm s').t.2 = 3/4 := by
  have hr : Reachable sample_tables sample_quad sample_pushed :=
    Reachable.push _ _ 2 (Reachable.reset sample_state rfl) (by decide) rfl
  have hc : get_ctm sample_pushed = ⟨(1/2, 1/2), (1/2, 1/2)⟩ := by
    simp [get_ctm, sample_pushed, run, step, Outcome.state, push_transform, reset_transform,
      sample_state, sample_quad, sample_tables, write_m0, write_m1, write_t0, write_t1]
  have hq : sample_tables.quad_trf 5 = ⟨(1, 1/2), (0, 1/2)⟩ := by
    simp [sample_tables]
  obtain ⟨s', h, h1, h2, h3, h4⟩ :=
    push_composes sample_tables sample_quad sample_pushed 5 hr (by decide)
  refine ⟨hr, rfl, hc, hq, s', h, ?_, ?_, ?_, ?_⟩
  · rw [h1, hc]; simp [sample_quad, hq]
  · rw [h2, hc]; simp [sample_quad, hq]; norm_num
  · rw [h3, hc]; simp [sample_quad, hq]
  · rw [h4, hc]; simp [sample_quad, hq]; norm_num

/-- C4 (index and depth bookkeeping): in a reachable state, a completed
`push_transform(son)` with a valid son sets the path index to
`(old_index << 3) + son + 1` (no bit is lost) and raises `get_depth()` by 1; a
completed `pop_transform()` sets the path index to `(old_index - 1) >> 3` (the
old index being at least 1) and lowers `get_depth()` by 1. -/
theorem index_and_depth [Mul α] [Add α] [One α] [Zero α] (tb : Tables α) (e : Element)
    (s : Transformable α) (son : Int) (hs : Reachable tb e s) (hv : valid_son e son) :
    (∀ s', push_transform tb s son = .done s' →
      (get_transform s' : Int) = ((get_transform s <<< 3 : Nat) : Int) + son + 1 ∧
      get_depth s' = get_depth s + 1) ∧
    (∀ s', pop_transform s = .done s' →
      1 ≤ get_transform s ∧ get_transform s' = (get_transform s - 1) >>> 3 ∧
      get_depth s' = get_depth s - 1) := by
  obtain ⟨sons, ht⟩ := reachable_tracks tb e s hs
  constructor
  · intro s' h
    have hlt := (push_done_inv tb s s' son h).1
    have hlen : sons.length < 20 := by have := ht.2.1; omega
    obtain ⟨s'', h1, h2, h3, -⟩ := push_tracks tb e s sons son ht hv hlen
    have heq : s'' = s' := by rw [h1] at h; exact Outcome.done.inj h
    subst heq
    refine ⟨?_, h3⟩
    have hson := valid_son_le e son hv
    simp only [get_transform, h2.2.2.2.2.1, ht.2.2.2.2.1, encode_append, Nat.shiftLeft_eq]
    push_cast
    rw [Int.toNat_of_nonneg hson.1]
    ring
  · intro s' h
    have hpos := pop_done_inv s s' h
    rcases List.eq_nil_or_concat sons with hnil | ⟨q, a, hq⟩
    · have := ht.2.1; simp [hnil] at this; omega
    · rw [List.concat_eq_append] at hq
      subst hq
      obtain ⟨s'', h1, h2, -, h3, -⟩ := pop_tracks tb e s q a ht
      have heq : s'' = s' := by rw [h1] at h; exact Outcome.done.inj h
      subst heq
      have ha := valid_son_le e a (ht.2.2.2.2.2.1 a (by simp))
      have hidx : s.sub_idx = 8 * encode q + a.toNat + 1 := by
        rw [ht.2.2.2.2.1, encode_append]
      refine ⟨by simp only [get_transform]; omega, ?_, h3⟩
      simp only [get_transform, h2.2.2.2.2.1, hidx, Nat.shiftRight_eq_div_pow]
      omega

/-- At depth 1 of a quadrilateral with index 3: a push of son 7 gives index
`(3 << 3) + 7 + 1 = 32` and depth 2, a pop gives index `(3 - 1) >> 3 = 0` and
depth 0. -/
theorem index_and_depth_witness :
    get_transform sample_pushed = 3 ∧ get_depth sample_pushed = 1 ∧
    (∃ s', push_transform sample_tables sample_pushed 7 = .done s' ∧
      get_transform s' = 32 ∧ get_depth s' = 2) ∧
    (∃ s', pop_transform sample_pushed = .done s' ∧
      get_transform s' = 0 ∧ get_depth s' = 0) :=
  have hr : Reachable sample_tables sample_quad sample_pushed :=
    Reachable.push _ _ 2 (Reachable.reset sample_state rfl) (by decide) rfl
  have h := index_and_depth sample_tables sample_quad sample_pushed 7 hr (by decide)
  ⟨rfl, rfl,
    ⟨_, rfl, by have := (h.1 _ rfl).1; exact_mod_cast this, (h.1 _ rfl).2⟩,
    ⟨_, rfl, (h.2 _ rfl).2.1, (h.2 _ rfl).2.2⟩⟩

/-- C5 (stack overflow): in a reachable state (an active element is set),
`push_transform` stops with "Too deep transform." exactly when the depth is
already 20, it stops for no other reason, the stopped call leaves every member
(current transform, path index, depth, stack) as it was, and at every depth
below 20 the push completes. -/
theorem push_too_deep [Mul α] [Add α] [One α] [Zero α] (tb : Tables α) (e : Element)
    (s : Transformable α) (son : Int) (hs : Reachable tb e s) :
    ((∃ s', push_transform tb s son = .failed .too_deep_transform s') ↔ get_depth s = 20) ∧
    (∀ f s', push_transform tb s son = .failed f s' → f = .too_deep_transform ∧ s' = s) ∧
    (get_depth s < 20 → ∃ s', push_transform tb s son = .done s') := by
  obtain ⟨sons, hel, htop, hlen, hctm, -⟩ := reachable_tracks tb e s hs
  have hle : s.top ≤ 20 := by omega
  by_cases h20 : s.top ≥ 20
  · have hp : push_transform tb s son = .failed .too_deep_transform s := by
      simp only [push_transform, hel, h20, if_true]
    refine ⟨⟨fun _ => ?_, fun _ => ⟨s, hp⟩⟩, ?_, ?_⟩
    · show s.top = 20
      omega
    · intro f s' h
      rw [hp] at h
      cases h
      exact ⟨rfl, rfl⟩
    · intro h
      have : s.top < 20 := h
      omega
  · have hlt : s.top < 20 := by omega
    have hp := push_eq tb e s son hel hlt hctm
    refine ⟨⟨fun ⟨s', h⟩ => ?_, fun h => ?_⟩, ?_, fun _ => ⟨_, hp⟩⟩
    · rw [hp] at h; cases h
    · have : s.top = 20 := h
      omega
    · intro f s' h
      rw [hp] at h; cases h

/-- A push on the full stack of a quadrilateral stops with "Too deep
transform." and leaves the state as it was; it does not complete. -/
theorem push_too_deep_witness :
    Reachable sample_tables sample_quad sample_full ∧ get_depth sample_full = 20 ∧
    push_transform sample_tables sample_full 0 = .failed .too_deep_transform sample_full ∧
    ¬ ∃ s', push_transform sample_tables sample_full 0 = .done s' :=
  have hr : Reachable sample_tables sample_quad sample_full :=
    run_reachable sample_tables sample_quad (List.replicate 20 (.push 0)) _ _
      (Reachable.reset sample_state rfl)
      (by intro son h; simp at h; subst h; decide) rfl
  have h := push_too_deep sample_tables sample_quad sample_full 0 hr
  have hf := h.1.2 rfl
  ⟨hr, rfl,
    by obtain ⟨s', hs'⟩ := hf; rw [hs', (h.2.1 _ _ hs').2],
    by obtain ⟨s', hs'⟩ := hf; rintro ⟨s2, hs2⟩; rw [hs'] at hs2; cases hs2⟩

/-- C6 (stack underflow): `pop_transform` stops on its check `top > 0`, leaving
the state as it was, when the depth is 0 (and only when `top > 0` fails); at
every depth from 1 to 20 it completes. -/
theorem pop_at_depth_zero (s : Transformable α) :
    (get_depth s = 0 → pop_transform s = .failed .assert_top s) ∧
    ((∃ f s', pop_transform s = .failed f s') ↔ ¬ get_depth s > 0) ∧
    (1 ≤ get_depth s ∧ get_depth s ≤ 20 → ∃ s', pop_transform s = .done s') := by
  refine ⟨fun h => ?_, ⟨fun ⟨f, s', h⟩ hpos => ?_, fun h => ?_⟩, fun h => ?_⟩
  · have h0 : s.top = 0 := h
    simp [pop_transform, h0]
  · rw [pop_eq s hpos] at h; cases h
  · have hn : ¬ s.top > 0 := h
    exact ⟨.assert_top, s, by simp only [pop_transform, hn, if_false]⟩
  · have hpos : s.top > 0 := by have : 1 ≤ s.top := h.1; omega
    exact ⟨_, pop_eq s hpos⟩

/-- C7 (reset and construction): `reset_transform`, called in any state, leaves
the current transform with scale (1,1) and translation (0,0), depth 0, path
index 0 and jacobian 1; a newly constructed `Transformable` is in the same
state (and has no active element), whatever memory it is built on. -/
theorem reset_gives_identity [MulOneClass α] [Zero α] (s raw : Transformable α) :
    (get_ctm (reset_transform s) = ⟨(1, 1), (0, 0)⟩ ∧ get_depth (reset_transform s) = 0 ∧
      get_transform (reset_transform s) = 0 ∧
      get_transform_jacobian (reset_transform s) = 1) ∧
    (get_ctm (ctor raw) = ⟨(1, 1), (0, 0)⟩ ∧ get_depth (ctor raw) = 0 ∧
      get_transform (ctor raw) = 0 ∧ get_transform_jacobian (ctor raw) = 1 ∧
      get_active_element (ctor raw) = none) := by
  refine ⟨⟨?_, rfl, rfl, ?_⟩, ?_, rfl, rfl, ?_, rfl⟩
  · simp [get_ctm, reset_transform, write_m0, write_m1, write_t0, write_t1]
  · simp [get_transform_jacobian, reset_transform, write_m0, write_m1, write_t0, write_t1]
  · simp [get_ctm, ctor, reset_transform, write_m0, write_m1, write_t0, write_t1]
  · simp [get_transform_jacobian, ctor, reset_transform, write_m0, write_m1, write_t0,
      write_t1]

/-- C8 (decode/replay equivalence): for a son sequence `S` of length at most
20, valid for the active element, the replay (a reset, then a push of each
son of `S`) completes with some path index `idx`; and `set_transform(idx)`,
called in any state of an evaluator whose active element has the same shape,
completes with the same current transform, depth and path index as the
replay: in particular `get_transform()` then returns `idx`. -/
theorem set_transform_replays [Mul α] [Add α] [One α] [Zero α] (tb : Tables α)
    (e e' : Element) (S : List Int) (s0 s1 : Transformable α)
    (hel0 : s0.element = some e) (hel1 : s1.element = some e')
    (hshape : e'.is_triangle = e.is_triangle)
    (hv : ∀ x ∈ S, valid_son e x) (hlen : S.length ≤ 20) :
    ∃ r, run tb (reset_transform s0) (S.map Call.push) = .done r ∧
      ∃ r', set_transform tb s1 (get_transform r) = .done r' ∧
        get_ctm r' = get_ctm r ∧ get_depth r' = get_depth r ∧
        get_transform r' = get_transform r := by
  obtain ⟨r, hr, htr⟩ := run_pushes_tracks tb e S _ [] (reset_tracks tb e s0 hel0) hv
    (by simpa using hlen)
  have hv' : ∀ x ∈ S, valid_son e' x := by
    intro x hx
    have := hv x hx
    simpa [valid_son, hshape] using this
  obtain ⟨r', hr', htr'⟩ := run_pushes_tracks tb e' S _ [] (reset_tracks tb e' s1 hel1) hv'
    (by simpa using hlen)
  simp only [List.nil_append] at htr htr'
  obtain ⟨hc, hd, hi⟩ := tracks_view tb e r S htr
  obtain ⟨hc', hd', hi'⟩ := tracks_view tb e' r' S htr'
  have hdec : decode (get_transform r) = S := by
    rw [hi]
    exact decode_encode S (fun x hx => valid_son_le e x (hv x hx)) (by omega)
  refine ⟨r, hr, r', ?_, ?_, ?_, ?_⟩
  · simp only [set_transform, hdec]
    exact hr'
  · rw [hc, hc', path_trf_shape tb e' e hshape]
  · rw [hd, hd']
  · rw [hi, hi']

/-- The sons 2, 5 of a quadrilateral have path index 30, which decodes to 2, 5;
`set_transform` of that index from a stale state at depth 1 agrees with the
replay. -/
theorem set_transform_replays_witness :
    get_transform (run sample_tables (reset_transform sample_state)
      [.push 2, .push 5]).state = 30 ∧
    decode 30 = [2, 5] ∧
    ∃ r, run sample_tables (reset_transform sample_state) [.push 2, .push 5] = .done r ∧
      ∃ r', set_transform sample_tables sample_pushed (get_transform r) = .done r' ∧
        get_ctm r' = get_ctm r ∧ get_depth r' = get_depth r ∧
        get_transform r' = get_transform r :=
  ⟨rfl, by decide,
    set_transform_replays sample_tables sample_quad sample_quad [2, 5] sample_state
      sample_pushed rfl rfl rfl (by decide) (by decide)⟩

/-- C10 (jacobian multiplicativity, over exact arithmetic):
`get_transform_jacobian()` is the product of the two scale components of the
current transform; and from a reachable state of depth at most 18, pushes of
valid sons `i` and then `j` complete and leave the jacobian equal to the
jacobian before the pushes times `tr_i.m[0] * tr_i.m[1]` times
`tr_j.m[0] * tr_j.m[1]`, with `tr_i`, `tr_j` the table entries for the shape of
the active element. -/
theorem jacobian_multiplicative [CommRing α] (tb : Tables α) (e : Element)
    (s : Transformable α) (i j : Int)
    (hs : Reachable tb e s) (hd : get_depth s ≤ 18)
    (hi : valid_son e i) (hj : valid_son e j) :
    get_transform_jacobian s = (get_ctm s).m.1 * (get_ctm s).m.2 ∧
    ∃ s1 s2, push_transform tb s i = .done s1 ∧ push_transform tb s1 j = .done s2 ∧
      get_transform_jacobian s2 = get_transform_jacobian s
        * ((if e.is_triangle then tb.tri_trf i else tb.quad_trf i).m.1
          * (if e.is_triangle then tb.tri_trf i else tb.quad_trf i).m.2)
        * ((if e.is_triangle then tb.tri_trf j else tb.quad_trf j).m.1
          * (if e.is_triangle then tb.tri_trf j else tb.quad_trf j).m.2) := by
  refine ⟨rfl, ?_⟩
  obtain ⟨sons, ht⟩ := reachable_tracks tb e s hs
  have hlen : sons.length ≤ 18 := by
    have h1 := ht.2.1
    have h2 : s.top ≤ 18 := hd
    omega
  obtain ⟨s1, hp1, ht1, -⟩ := push_tracks tb e s sons i ht hi (by omega)
  obtain ⟨s2, hp2, ht2, -⟩ := push_tracks tb e s1 (sons ++ [i]) j ht1 hj (by simp; omega)
  refine ⟨s1, s2, hp1, hp2, ?_⟩
  have hc := (tracks_view tb e s sons ht).1
  have hc2 := (tracks_view tb e s2 _ ht2).1
  rw [path_trf_append, path_trf_append, ← hc] at hc2
  have hj2 : get_transform_jacobian s2 = (get_ctm s2).m.1 * (get_ctm s2).m.2 := rfl
  have hj0 : get_transform_jacobian s = (get_ctm s).m.1 * (get_ctm s).m.2 := rfl
  rw [hj2, hj0, hc2]
  simp only [compose, son_trf]
  ring

/-- Sons 2 (a quarter) and 5 (a horizontal half) of a quadrilateral pushed at
depth 1, where the jacobian is 1/4: the jacobian becomes
1/4 * 1/4 * 1/2 = 1/32. -/
theorem jacobian_multiplicative_witness :
    Reachable sample_tables sample_quad sample_pushed ∧ get_depth sample_pushed = 1 ∧
    get_transform_jacobian sample_pushed = 1/4 ∧
    ∃ s1 s2, push_transform sample_tables sample_pushed 2 = .done s1 ∧
      push_transform sample_tables s1 5 = .done s2 ∧
      get_transform_jacobian s2 = 1/32 := by
  have hr : Reachable sample_tables sample_quad sample_pushed :=
    Reachable.push _ _ 2 (Reachable.reset sample_state rfl) (by decide) rfl
  have hj : get_transform_jacobian sample_pushed = 1/4 := by
    simp [get_transform_jacobian, sample_pushed, run, step, Outcome.state, push_transform,
      reset_transform, sample_state, sample_quad, sample_tables, write_m0, write_m1,
      write_t0, write_t1]
    norm_num
  obtain ⟨-, s1, s2, h1, h2, h3⟩ :=
    jacobian_multiplicative sample_tables sample_quad sample_pushed 2 5 hr (by decide)
      (by decide) (by decide)
  refine ⟨hr, rfl, hj, s1, s2, h1, h2, ?_⟩
  rw [h3, hj]
  simp [sample_quad, sample_tables]
  norm_num

/-! ## Composition, depth bound, packing -/

/-- A push composes the action on points: the new transform is the old one
after the son transform. -/
theorem apply_compose [CommRing α] (c tr : Trf α) (p : α × α) :
    apply_trf (compose c tr) p = apply_trf c (apply_trf tr p) := by
  simp only [apply_trf, compose]
  ext <;> simp <;> ring

/-- The cumulative transform of a son sequence acts as the son transforms
applied last son first. -/
theorem apply_path_trf [CommRing α] (tb : Tables α) (e : Element) (S : List Int) (p : α × α) :
    apply_trf (path_trf tb e S) p
      = S.foldr (fun son q => apply_trf (son_trf tb e son) q) p := by
  induction S using List.reverseRecOn generalizing p with
  | nil => simp [path_trf, identity_trf, apply_trf]
  | append_singleton l a ih =>
    rw [path_trf_append, apply_compose, ih, List.foldr_append]
    simp

/-- C11 (composition on the right, over exact arithmetic): after
`reset_transform` and pushes of valid sons `s1, ..., sn` (`n` at most 20), which
complete, the current transform maps every point `p` to
`tr_s1(tr_s2(... tr_sn(p) ...))` with `tr_s(p) = tr_s.m * p + tr_s.t`; and each
push from a reachable state below depth 20 satisfies
`new_ctm(p) = old_ctm(tr_son(p))` for every `p`. -/
theorem ctm_is_composition [CommRing α] (tb : Tables α) (e : Element) (S : List Int)
    (s0 : Transformable α) (hel : s0.element = some e)
    (hv : ∀ x ∈ S, valid_son e x) (hlen : S.length ≤ 20) :
    (∃ r, run tb (reset_transform s0) (S.map Call.push) = .done r ∧
      ∀ p : α × α, apply_trf (get_ctm r) p
        = S.foldr (fun son q =>
            apply_trf (if e.is_triangle then tb.tri_trf son else tb.quad_trf son) q) p) ∧
    (∀ (s : Transformable α) (son : Int), Reachable tb e s → get_depth s < 20 →
      ∃ s', push_transform tb s son = .done s' ∧
        ∀ p : α × α, apply_trf (get_ctm s') p
          = apply_trf (get_ctm s)
              (apply_trf (if e.is_triangle then tb.tri_trf son else tb.quad_trf son) p)) := by
  constructor
  · obtain ⟨r, hr, htr⟩ := run_pushes_tracks tb e S _ [] (reset_tracks tb e s0 hel) hv
      (by simpa using hlen)
    simp only [List.nil_append] at htr
    refine ⟨r, hr, fun p => ?_⟩
    rw [(tracks_view tb e r S htr).1, apply_path_trf]
    rfl
  · intro s son hs hd
    obtain ⟨sons, ht⟩ := reachable_tracks tb e s hs
    have hc : s.ctm = s.top := ht.2.2.2.1
    refine ⟨_, push_eq tb e s son ht.1 hd hc, fun p => ?_⟩
    have h1 : get_ctm s = s.stack s.top := by rw [get_ctm, hc]
    rw [h1, ← apply_compose]
    simp [get_ctm, son_trf]

/-- The sons 2 and 5 of a quadrilateral: son 5 maps the point (0, 0) to
(0, 1/2), son 2 maps that to (1/2, 3/4), and so does the current transform
after the two pushes map (0, 0). -/
theorem ctm_is_composition_witness :
    apply_trf (sample_tables.quad_trf 5) (0, 0) = (0, 1/2) ∧
    apply_trf (sample_tables.quad_trf 2) (0, 1/2) = (1/2, 3/4) ∧
    ∃ r, run sample_tables (reset_transform sample_state) [.push 2, .push 5] = .done r ∧
      apply_trf (get_ctm r) (0, 0) = (1/2, 3/4) := by
  have h5 : apply_trf (sample_tables.quad_trf 5) ((0 : ℚ), (0 : ℚ)) = (0, 1/2) := by
    simp [apply_trf, sample_tables]
  have h2 : apply_trf (sample_tables.quad_trf 2) ((0 : ℚ), (1/2 : ℚ)) = (1/2, 3/4) := by
    simp [apply_trf, sample_tables]; norm_num
  obtain ⟨⟨r, hr, hp⟩, -⟩ :=
    ctm_is_composition sample_tables sample_quad [2, 5] sample_state rfl (by decide)
      (by decide)
  refine ⟨h5, h2, r, hr, ?_⟩
  rw [hp (0, 0)]
  simp only [List.foldr, sample_quad]
  simp only [Bool.false_eq_true, if_false]
  rw [h5, h2]

/-- With an element set and the depth below 20 a push completes, whatever the
son and wherever `ctm` points; the members other than the stack afterwards. -/
theorem push_ready [Mul α] [Add α] (tb : Tables α) (s : Transformable α) (son : Int)
    (e : Element) (hel : s.element = some e) (htop : s.top < 20) :
    ∃ s', push_transform tb s son = .done s' ∧ s'.top = s.top + 1 ∧ s'.ctm = s.top + 1 ∧
      s'.element = s.element ∧
      s'.sub_idx = (((s.sub_idx <<< 3) % UINT64_MOD + to_uint64 son) % UINT64_MOD + 1)
        % UINT64_MOD := by
  have hnot : ¬ s.top ≥ 20 := by omega
  simp only [push_transform, hel, hnot, if_false]
  exact ⟨_, rfl, rfl, rfl, rfl, rfl⟩

/-- The members other than the stack after a completed push. -/
theorem push_done_fields [Mul α] [Add α] (tb : Tables α) (s s' : Transformable α) (son : Int)
    (h : push_transform tb s son = .done s') :
    s.top < 20 ∧ s'.top = s.top + 1 ∧ s'.ctm = s.top + 1 ∧ s'.element = s.element ∧
      s'.sub_idx = (((s.sub_idx <<< 3) % UINT64_MOD + to_uint64 son) % UINT64_MOD + 1)
        % UINT64_MOD := by
  obtain ⟨hlt, hne⟩ := push_done_inv tb s s' son h
  obtain ⟨e, he⟩ := Option.ne_none_iff_exists'.1 hne
  obtain ⟨s'', h1, h2⟩ := push_ready tb s son e he hlt
  have heq : s'' = s' := by rw [h1] at h; exact Outcome.done.inj h
  subst heq
  exact ⟨hlt, h2⟩

/-- The members other than `top`, `ctm` and `sub_idx` after a completed pop. -/
theorem pop_done_fields (s s' : Transformable α) (h : pop_transform s = .done s') :
    s.top > 0 ∧ s'.top = s.top - 1 ∧ s'.ctm = s.top - 1 ∧ s'.element = s.element ∧
      s'.stack = s.stack := by
  have hpos := pop_done_inv s s' h
  rw [pop_eq s hpos] at h
  have heq := Outcome.done.inj h
  subst heq
  exact ⟨hpos, rfl, rfl, rfl, rfl⟩

/-- From construction on, the depth is within 0..20 and `ctm` points at
`stack[top]`. -/
theorem constructed_inv [Mul α] [Add α] [One α] [Zero α] (tb : Tables α)
    (s : Transformable α) (h : Constructed tb s) : 0 ≤ s.top ∧ s.top ≤ 20 ∧ s.ctm = s.top := by
  induction h with
  | ctor raw => exact ⟨le_rfl, by show (0 : Int) ≤ 20; omega, rfl⟩
  | set_active_element s e _ ih => exact ih
  | reset s _ _ => exact ⟨le_rfl, by show (0 : Int) ≤ 20; omega, rfl⟩
  | push s s' son _ hp ih =>
    obtain ⟨h1, h2, h3, -⟩ := push_done_fields tb s s' son hp
    exact ⟨by omega, by omega, by omega⟩
  | pop s s' _ hp ih =>
    obtain ⟨h1, h2, h3, -⟩ := pop_done_fields s s' hp
    exact ⟨by omega, by omega, by omega⟩

/-- A run of calls that does not stop leads from a constructed state to a
constructed state. -/
theorem run_constructed [Mul α] [Add α] [One α] [Zero α] (tb : Tables α)
    (calls : List Call) (s s' : Transformable α) (hs : Constructed tb s)
    (h : run tb s calls = .done s') : Constructed tb s' := by
  induction calls generalizing s with
  | nil => simp only [run] at h; cases h; exact hs
  | cons c cs ih =>
    simp only [run] at h
    split at h
    · rename_i s1 hstep
      refine ih s1 ?_ h
      cases c with
      | push son => exact Constructed.push s s1 son hs hstep
      | pop => exact Constructed.pop s s1 hs hstep
    · cases h

/-- C12 (depth bound): in every state reached from construction by calls of
`set_active_element`, `reset_transform`, `push_transform` and `pop_transform`
that do not stop, `0 <= get_depth() <= 20`, and every entry of `stack` that a
completing `push_transform` or `pop_transform` touches there has its index
within the 21 entries of the array. -/
theorem depth_bound [Mul α] [Add α] [One α] [Zero α] (tb : Tables α)
    (s : Transformable α) (h : Constructed tb s) :
    (0 ≤ get_depth s ∧ get_depth s ≤ 20) ∧
    (∀ son s', push_transform tb s son = .done s' →
      ∀ i ∈ push_stack_accesses s, 0 ≤ i ∧ i < STACK_SIZE) ∧
    (∀ s', pop_transform s = .done s' →
      ∀ i ∈ pop_stack_accesses s, 0 ≤ i ∧ i < STACK_SIZE) := by
  obtain ⟨h0, h20, hc⟩ := constructed_inv tb s h
  refine ⟨⟨h0, h20⟩, ?_, ?_⟩
  · intro son s' hp i hi
    have hlt := (push_done_fields tb s s' son hp).1
    simp only [push_stack_accesses, List.mem_cons, List.mem_singleton, List.not_mem_nil,
      or_false] at hi
    unfold STACK_SIZE
    rcases hi with rfl | rfl <;> omega
  · intro s' hp i hi
    have hpos := (pop_done_fields s s' hp).1
    simp only [pop_stack_accesses, List.mem_singleton] at hi
    unfold STACK_SIZE
    subst hi
    omega

/-- A constructed object given a quadrilateral and pushed to depth 19: a
further push completes and touches `stack[20]` and `stack[19]`, a pop completes
and makes `stack[18]` current. -/
theorem depth_bound_witness :
    ∃ s, run sample_tables (set_active_element (ctor sample_state) (some sample_quad))
        (List.replicate 19 (.push 0)) = .done s ∧
      Constructed sample_tables s ∧ get_depth s = 19 ∧
      (∃ s', push_transform sample_tables s 7 = .done s') ∧
      push_stack_accesses s = [20, 19] ∧
      (∀ i ∈ push_stack_accesses s, 0 ≤ i ∧ i < STACK_SIZE) ∧
      (∃ s', pop_transform s = .done s') ∧ pop_stack_accesses s = [18] ∧
      (∀ i ∈ pop_stack_accesses s, 0 ≤ i ∧ i < STACK_SIZE) := by
  refine ⟨_, rfl, ?_⟩
  have hc : Constructed sample_tables
      (run sample_tables (set_active_element (ctor sample_state) (some sample_quad))
        (List.replicate 19 (.push 0))).state := by
    have h0 : Constructed sample_tables
        (set_active_element (ctor sample_state) (some sample_quad)) :=
      Constructed.set_active_element _ _ (Constructed.ctor sample_state)
    exact run_constructed sample_tables (List.replicate 19 (.push 0)) _ _ h0 rfl
  have h := depth_bound sample_tables _ hc
  exact ⟨hc, rfl, ⟨_, rfl⟩, rfl, h.2.1 7 _ rfl, ⟨_, rfl⟩, rfl, h.2.2 _ rfl⟩

/-- The path index of sons in `0..6` has one base-8 digit `son + 1` per level
and no further digit. -/
theorem encode_digits (S : List Int) (h : ∀ son ∈ S, 0 ≤ son ∧ son ≤ 6) :
    encode S < 8 ^ S.length ∧
    ∀ (i : Nat) (hi : i < S.length),
      ((encode S / 8 ^ (S.length - (i + 1)) % 8 : Nat) : Int) = S.get ⟨i, hi⟩ + 1 := by
  induction S using List.reverseRecOn with
  | nil => simp [encode]
  | append_singleton l a ih =>
    have hl : ∀ son ∈ l, 0 ≤ son ∧ son ≤ 6 := fun x hx => h x (by simp [hx])
    have ha := h a (by simp)
    obtain ⟨ih1, ih2⟩ := ih hl
    have hlen : (l ++ [a]).length = l.length + 1 := by simp
    constructor
    · rw [encode_append, hlen, pow_succ]
      omega
    · intro i hi
      rw [encode_append]
      simp only [hlen] at hi ⊢
      by_cases hlt : i < l.length
      · have hget : (l ++ [a]).get ⟨i, by simp; omega⟩ = l.get ⟨i, hlt⟩ := by
          simp [List.getElem_append_left, hlt]
        rw [hget, ← ih2 i hlt]
        have hexp : l.length + 1 - (i + 1) = (l.length - (i + 1)) + 1 := by omega
        have h8 : (8 * encode l + a.toNat + 1) / 8 = encode l := by omega
        rw [hexp, pow_succ', ← Nat.div_div_eq_div_mul, h8]
      · have hieq : i = l.length := by omega
        subst hieq
        have hget : (l ++ [a]).get ⟨l.length, by simp⟩ = a := by
          simp
        rw [hget]
        simp only [Nat.sub_self, pow_zero, Nat.div_one]
        omega

/-- A shift by three bits per level is a division by a power of 8, and the mask
7 a remainder modulo 8. -/
theorem field_eq (x m : Nat) : (x >>> (3 * m)) &&& 7 = x / 8 ^ m % 8 := by
  have h7 : (7 : Nat) = 2 ^ 3 - 1 := by norm_num
  rw [h7, Nat.and_pow_two_sub_one_eq_mod, Nat.shiftRight_eq_div_pow, pow_mul]
  norm_num

/-- C13, as amended (3 bits per level, sons below 7): for every son sequence
`s1, ..., sn` (`n` at most 20) valid for the active element and with every son
in `0..6` (every valid son of a triangle is), the pushes after
`reset_transform` complete, the field `(sub_idx >> 3*(n-k)) & 7` of the path
index equals `s_k + 1` for every `k` in `1..n`, so no pushed level has field
value 0, and all bits above the lowest `3*n` bits are 0. -/
theorem packing_three_bits [Mul α] [Add α] [One α] [Zero α] (tb : Tables α) (e : Element)
    (S : List Int) (s0 : Transformable α) (hel : s0.element = some e)
    (hv : ∀ x ∈ S, valid_son e x) (h6 : ∀ x ∈ S, x ≤ 6) (hlen : S.length ≤ 20) :
    ∃ r, run tb (reset_transform s0) (S.map Call.push) = .done r ∧
      (∀ (k : Nat) (hk1 : 1 ≤ k) (hk : k ≤ S.length),
        (((get_transform r >>> (3 * (S.length - k))) &&& 7 : Nat) : Int)
            = S.get ⟨k - 1, by omega⟩ + 1 ∧
        (get_transform r >>> (3 * (S.length - k))) &&& 7 ≠ 0) ∧
      get_transform r >>> (3 * S.length) = 0 := by
  obtain ⟨r, hr, htr⟩ := run_pushes_tracks tb e S _ [] (reset_tracks tb e s0 hel) hv
    (by simpa using hlen)
  simp only [List.nil_append] at htr
  have hi := (tracks_view tb e r S htr).2.2
  obtain ⟨hd1, hd2⟩ := encode_digits S (fun x hx => ⟨(valid_son_le e x (hv x hx)).1, h6 x hx⟩)
  refine ⟨r, hr, ?_, ?_⟩
  · intro k hk1 hk
    have hkk : S.length - k = S.length - ((k - 1) + 1) := by omega
    have hf := hd2 (k - 1) (by omega)
    rw [hi, field_eq, hkk]
    refine ⟨hf, ?_⟩
    have hnn := (valid_son_le e _ (hv _ (List.get_mem S (k - 1) (by omega)))).1
    intro h0
    rw [h0] at hf
    simp only [Nat.cast_zero] at hf
    omega
  · rw [hi, Nat.shiftRight_eq_div_pow, pow_mul]
    norm_num
    exact Nat.div_eq_of_lt hd1

/-- The sons 2, 5 of a quadrilateral: the index 30 has the fields 3 and 6 and
nothing above them. -/
theorem packing_three_bits_witness :
    ∃ r, run sample_tables (reset_transform sample_state) [.push 2, .push 5] = .done r ∧
      get_transform r = 30 ∧
      (get_transform r >>> (3 * (2 - 1))) &&& 7 = 2 + 1 ∧
      (get_transform r >>> (3 * (2 - 2))) &&& 7 = 5 + 1 ∧
      get_transform r >>> (3 * 2) = 0 := by
  obtain ⟨r, hr, hf, h0⟩ :=
    packing_three_bits sample_tables sample_quad [2, 5] sample_state rfl (by decide)
      (by decide) (by decide)
  have hrun : run sample_tables (reset_transform sample_state) [.push 2, .push 5]
      = .done r := hr
  have h30 : get_transform r = 30 := by
    have h : run sample_tables (reset_transform sample_state) [.push 2, .push 5]
      = .done (run sample_tables (reset_transform sample_state) [.push 2, .push 5]).state :=
      rfl
    rw [h] at hrun
    rw [← Outcome.done.inj hrun]
    rfl
  have h1 := (hf 1 (by decide) (by decide)).1
  have h2 := (hf 2 (by decide) (by decide)).1
  refine ⟨r, hrun, h30, ?_, ?_, h0⟩
  · exact Int.ofNat.inj h1
  · exact Int.ofNat.inj h2

/-- C13, as stated, fails for son 7 of a quadrilateral: after one push of the
valid son 7 the path index is 8, whose lowest field `(8 >> 0) & 7` is 0 and
not `7 + 1`, and which has a bit above its lowest 3 bits. -/
theorem packing_three_bits_counterexample :
    ∃ r, run sample_tables (reset_transform sample_state) [.push 7] = .done r ∧
      valid_son sample_quad 7 ∧ get_transform r = 8 ∧
      (get_transform r >>> (3 * (1 - 1))) &&& 7 = 0 ∧
      (get_transform r >>> (3 * (1 - 1))) &&& 7 ≠ 7 + 1 ∧
      get_transform r >>> (3 * 1) ≠ 0 :=
  ⟨_, rfl, by decide, rfl, by decide, by decide, by decide⟩

/-! ## Invalid sons, the active element -/

/-- C15 (the active element and the transform are independent):
`push_transform`, `pop_transform` (completed or stopped) and `reset_transform`
leave the value of `get_active_element()` as it was, and
`set_active_element(e)` leaves the current transform, the path index and the
depth as they were. -/
theorem element_independent [Mul α] [Add α] [One α] [Zero α] (tb : Tables α)
    (s : Transformable α) (son : Int) (e : Option Element) :
    get_active_element (push_transform tb s son).state = get_active_element s ∧
    get_active_element (pop_transform s).state = get_active_element s ∧
    get_active_element (reset_transform s) = get_active_element s ∧
    get_active_element (set_active_element s e) = e ∧
    get_ctm (set_active_element s e) = get_ctm s ∧
    get_transform (set_active_element s e) = get_transform s ∧
    get_depth (set_active_element s e) = get_depth s := by
  refine ⟨?_, ?_, rfl, rfl, rfl, rfl, rfl⟩
  · unfold push_transform
    split
    · rfl
    · rename_i e' he
      split
      · rfl
      · simp [Outcome.state, get_active_element, he]
  · unfold pop_transform
    split <;> rfl

end Transformable

/-! ## The adaptivity loops -/

/-- Every step of a loop is a pass through its body. -/
theorem mem_do_while {σ ρ : Type} (step : σ → ρ → StepLog × σ) (os : List ρ) :
    ∀ (st : σ) (log : StepLog), log ∈ do_while step st os → ∃ st' o, log = (step st' o).1 := by
  induction os with
  | nil => intro st log h; simp [do_while] at h
  | cons o os ih =>
    intro st log h
    simp only [do_while, List.mem_cons] at h
    rcases h with h | h
    · exact ⟨st, o, h⟩
    · split at h
      · simp at h
      · exact ih _ log h

/-- A loop ends after the step that sets `done`. -/
theorem do_while_ends {σ ρ : Type} (step : σ → ρ → StepLog × σ) (os : List ρ) :
    ∀ st : σ, ends_when_done (do_while step st os) := by
  induction os with
  | nil =>
    intro st pre log post h
    simp [do_while] at h
  | cons o os ih =>
    intro st pre log post h hd
    simp only [do_while] at h
    cases pre with
    | nil =>
      simp only [List.nil_append, List.cons.injEq] at h
      obtain ⟨h1, h2⟩ := h
      rw [h1, hd] at h2
      simpa using h2.symm
    | cons x pre' =>
      simp only [List.cons_append, List.cons.injEq] at h
      obtain ⟨-, h2⟩ := h
      split at h2
      · simp at h2
      · exact ih _ pre' log post h2 hd

/-- The step with a given position in a loop: it is a pass through the body on
the returns with that position, from a state whose measure `d` is the initial
one or the value `f` of the returns of the step before. -/
theorem do_while_at {σ ρ : Type} (step : σ → ρ → StepLog × σ) (d : σ → Int) (f : ρ → Int)
    (hstep : ∀ st o, (step st o).1.done = false → d (step st o).2 = f o) (os : List ρ) :
    ∀ (st : σ) (i : Nat) (log : StepLog), (do_while step st os)[i]? = some log →
      ∃ o st', os[i]? = some o ∧ log = (step st' o).1 ∧
        (d st :: os.map f)[i]? = some (d st') := by
  induction os with
  | nil => intro st i log h; simp [do_while] at h
  | cons o os ih =>
    intro st i log h
    simp only [do_while] at h
    cases i with
    | zero =>
      simp only [List.getElem?_cons_zero, Option.some.injEq] at h
      exact ⟨o, st, by simp, h.symm, by simp⟩
    | succ j =>
      simp only [List.getElem?_cons_succ] at h
      by_cases hd : (step st o).1.done = true
      · simp [hd] at h
      · have hd' : (step st o).1.done = false := by simpa using hd
        simp only [hd', Bool.false_eq_true, if_false] at h
        obtain ⟨o', st', h1, h2, h3⟩ := ih _ j log h
        refine ⟨o', st', by simpa using h1, h2, ?_⟩
        rw [hstep st o hd'] at h3
        simpa using h3

/-- A step that sets `done` is the last of its loop. -/
theorem do_while_done_last {σ ρ : Type} (step : σ → ρ → StepLog × σ) (os : List ρ) :
    ∀ (st : σ) (i : Nat) (log : StepLog), (do_while step st os)[i]? = some log →
      log.done = true → (do_while step st os).length = i + 1 := by
  induction os with
  | nil => intro st i log h; simp [do_while] at h
  | cons o os ih =>
    intro st i log h hdone
    simp only [do_while] at h ⊢
    cases i with
    | zero =>
      simp only [List.getElem?_cons_zero, Option.some.injEq] at h
      rw [h, hdone]
      simp
    | succ j =>
      simp only [List.getElem?_cons_succ] at h
      by_cases hd : (step st o).1.done = true
      · simp [hd] at h
      · have hd' : (step st o).1.done = false := by simpa using hd
        simp only [hd', Bool.false_eq_true, if_false] at h ⊢
        rw [List.length_cons, ih _ j log h hdone]

/-- After a step that does not set `done` the loop makes another pass, as long
as there are returns for it. -/
theorem do_while_continues {σ ρ : Type} (step : σ → ρ → StepLog × σ) (os : List ρ) :
    ∀ (st : σ) (i : Nat) (log : StepLog), (do_while step st os)[i]? = some log →
      log.done = false → i + 1 < os.length → i + 1 < (do_while step st os).length := by
  induction os with
  | nil => intro st i log h; simp [do_while] at h
  | cons o os ih =>
    intro st i log h hdone hlen
    simp only [do_while] at h ⊢
    simp only [List.length_cons] at hlen ⊢
    cases i with
    | zero =>
      simp only [List.getElem?_cons_zero, Option.some.injEq] at h
      rw [h, hdone]
      simp only [Bool.false_eq_true, if_false]
      cases os with
      | nil => simp at hlen
      | cons o2 os2 => simp [do_while]
    | succ j =>
      simp only [List.getElem?_cons_succ] at h
      by_cases hd : (step st o).1.done = true
      · simp [hd] at h
      · have hd' : (step st o).1.done = false := by simpa using hd
        simp only [hd', Bool.false_eq_true, if_false] at h ⊢
        have := ih _ j log h hdone (by omega)
        omega

/-- A loop whose body does, in every pass, what the error stop condition asks
of a step satisfies the error stop condition. -/
theorem contract_of_step {σ ρ : Type} (ERR_STOP : ℚ) (pre_ceiling : Option Int)
    (step : σ → ρ → StepLog × σ) (d : σ → Int) (f : ρ → Int) (err : ρ → ℚ)
    (hstep : ∀ st o, (step st o).1.done = false → d (step st o).2 = f o)
    (hbody : ∀ st o, (step st o).1.err_est = err o ∧ (step st o).1.ndofs = d st ∧
      (err o < ERR_STOP → Event.adapt ∉ (step st o).1.events ∧
        (∀ sp, Event.assign_dofs sp ∉ (step st o).1.events) ∧ (step st o).1.done = true) ∧
      (¬ err o < ERR_STOP → (∀ c, pre_ceiling = some c → d st < c) →
        (step st o).1.events.count Event.adapt = 1))
    (st : σ) (os : List ρ) :
    error_stop_contract ERR_STOP pre_ceiling (os.map err) (d st :: os.map f)
      (do_while step st os) := by
  refine ⟨?_, ?_, ?_⟩
  · intro h
    cases os with
    | nil => simp at h
    | cons o os => simp [do_while]
  · intro i log h hdone hlen
    exact do_while_continues step os st i log h hdone (by simpa using hlen)
  · intro i log h
    obtain ⟨o, st', h1, h2, h3⟩ := do_while_at step d f hstep os st i log h
    obtain ⟨hb1, hb2, hb3, hb4⟩ := hbody st' o
    refine ⟨err o, d st', by simp [h1], h3, by rw [h2, hb1], by rw [h2, hb2], ?_, ?_⟩
    · intro hlt
      obtain ⟨ha, hb, hc⟩ := hb3 hlt
      rw [h2]
      exact ⟨ha, hb, hc, do_while_done_last step os st i log h (by rw [h2]; exact hc)⟩
    · intro hge hceil
      rw [h2]
      exact hb4 hge hceil

/-- C16 (error stop condition): in the loops of bessel, crack and the
neutronics test, run on any error estimates and DOF counts the numerical layers
return, the first step runs and the loop goes on after every step that does not
end it; a step whose error estimate is below `ERR_STOP` calls neither `adapt`
nor `assign_dofs` and the loop ends after it; a step whose error estimate is
not below `ERR_STOP` (and, in crack, whose DOF count at the decision is below
the ceiling) calls `adapt` exactly once. -/
theorem error_stop_condition (n : Int) (bos : List Bessel.StepResult)
    (st : Int × Int) (cos : List Crack.StepResult)
    (flag : Bool) (m : Int) (nos : List Neutronics.StepResult) :
    error_stop_contract Bessel.ERR_STOP none (bos.map (fun o => o.err_est))
      (n :: bos.map (fun o => o.ndofs)) (Bessel.loop n bos) ∧
    error_stop_contract Crack.ERR_STOP (some Crack.NDOF_STOP) (cos.map (fun o => o.err_est))
      ((st.1 + st.2) :: cos.map (fun o => o.xdofs + o.ydofs)) (Crack.loop st cos) ∧
    error_stop_contract Neutronics.ERR_STOP none (nos.map (fun o => o.err_est))
      (m :: nos.map (fun o => o.ndofs)) (Neutronics.loop flag m nos) := by
  refine ⟨?_, ?_, ?_⟩
  · refine contract_of_step Bessel.ERR_STOP none Bessel.step (fun k => k)
      (fun o => o.ndofs) (fun o => o.err_est) ?_ ?_ n bos
    · intro k o hd
      by_cases h : o.err_est < Bessel.ERR_STOP
      · simp [Bessel.step, h] at hd
      · simp [Bessel.step, h]
    · intro k o
      by_cases h : o.err_est < Bessel.ERR_STOP
      · simp [Bessel.step, h]
      · simp [Bessel.step, h]
  · refine contract_of_step Crack.ERR_STOP (some Crack.NDOF_STOP) Crack.step
      (fun k => k.1 + k.2) (fun o => o.xdofs + o.ydofs) (fun o => o.err_est) ?_ ?_ st cos
    · intro k o hd
      by_cases h : o.err_est < Crack.ERR_STOP ∨ k.1 + k.2 ≥ Crack.NDOF_STOP
      · simp [Crack.step, h] at hd
      · simp [Crack.step, h]
    · intro k o
      by_cases h : o.err_est < Crack.ERR_STOP ∨ k.1 + k.2 ≥ Crack.NDOF_STOP
      · simp only [Crack.step, h, if_true]
        refine ⟨trivial, trivial, fun _ => by simp, fun h1 h2 => ?_⟩
        rcases h with h | h
        · exact absurd h h1
        · exact absurd h (not_le.2 (h2 _ rfl))
      · simp only [Crack.step, h, if_false]
        push_neg at h
        exact ⟨trivial, trivial, fun h1 => absurd h1 (not_lt.2 h.1), fun _ _ => by decide⟩
  · refine contract_of_step Neutronics.ERR_STOP none (Neutronics.step flag)
      (fun k => k.2) (fun o => o.ndofs) (fun o => o.err_est) ?_ ?_ (1, m) nos
    · intro k o hd
      by_cases h : o.err_est < Neutronics.ERR_STOP
      · simp [Neutronics.step, h] at hd
      · simp [Neutronics.step, h]
    · intro k o
      by_cases h : o.err_est < Neutronics.ERR_STOP
      · simp only [Neutronics.step, h, if_true]
        refine ⟨trivial, trivial, fun _ => ?_, fun h1 => absurd trivial h1⟩
        cases flag <;> by_cases h1 : k.1 = 1 <;> by_cases h2 : k.1 > 1 <;> simp [h1, h2]
      · simp only [Neutronics.step, h, if_false]
        refine ⟨trivial, trivial, fun h1 => absurd h1 (by simp), fun _ _ => ?_⟩
        cases flag <;> by_cases h1 : k.1 = 1 <;> by_cases h2 : k.1 > 1 <;>
          simp [h1, h2, List.count_cons, List.count_append]

/-- Runs of the three loops in which the first estimate is 1 percent and the
second is below `ERR_STOP`: the first step refines (one `adapt`), the second
does not and ends the loop, and further returns are not used. -/
theorem error_stop_condition_witness :
    Bessel.loop 100 [⟨1, 500⟩, ⟨1 / 10, 700⟩, ⟨1, 900⟩]
      = [⟨1, 100, [.assemble, .solve, .ref_assemble, .ref_solve, .calc_error, .adapt,
            .assign_dofs 0], false⟩,
          ⟨1 / 10, 500, [.assemble, .solve, .ref_assemble, .ref_solve, .calc_error], true⟩] ∧
    Crack.loop (100, 100) [⟨1, 300, 300⟩, ⟨1 / 100, 0, 0⟩]
      = [⟨1, 200, [.assemble, .solve, .ref_assemble, .ref_solve, .calc_error, .adapt,
            .assign_dofs 0, .assign_dofs 1], false⟩,
          ⟨1 / 100, 600, [.assemble, .solve, .ref_assemble, .ref_solve, .calc_error], true⟩] ∧
    Neutronics.loop true 100 [⟨1, false, 500⟩, ⟨1 / 100, false, 0⟩]
      = [⟨1, 100, [.ref_project, .ref_assemble, .ref_solve, .calc_error, .adapt], false⟩,
          ⟨1 / 100, 500, [.ref_assemble, .ref_solve, .assemble, .solve, .calc_error],
            true⟩] ∧
    error_stop_contract Bessel.ERR_STOP none [1, 1 / 10, 1] [100, 500, 700, 900]
      (Bessel.loop 100 [⟨1, 500⟩, ⟨1 / 10, 700⟩, ⟨1, 900⟩]) ∧
    error_stop_contract Crack.ERR_STOP (some Crack.NDOF_STOP) [1, 1 / 100] [200, 600, 0]
      (Crack.loop (100, 100) [⟨1, 300, 300⟩, ⟨1 / 100, 0, 0⟩]) ∧
    error_stop_contract Neutronics.ERR_STOP none [1, 1 / 100] [100, 500, 0]
      (Neutronics.loop true 100 [⟨1, false, 500⟩, ⟨1 / 100, false, 0⟩]) := by
  have h := error_stop_condition 100 [⟨1, 500⟩, ⟨1 / 10, 700⟩, ⟨1, 900⟩]
    (100, 100) [⟨1, 300, 300⟩, ⟨1 / 100, 0, 0⟩] true 100 [⟨1, false, 500⟩, ⟨1 / 100, false, 0⟩]
  refine ⟨?_, ?_, ?_, h.1, ?_, h.2.2⟩
  · simp [Bessel.loop, do_while, Bessel.step, Bessel.ERR_STOP, Bessel.NDOF_STOP]
    norm_num
  · simp [Crack.loop, do_while, Crack.step, Crack.ERR_STOP, Crack.NDOF_STOP]
    norm_num
  · simp [Neutronics.loop, do_while, Neutronics.step, Neutronics.ERR_STOP,
      Neutronics.NDOF_STOP]
    norm_num
  · have h2 := h.2.1
    simpa using h2

/-- In bessel, started below the ceiling, every step takes its decision below
the ceiling. -/
theorem Bessel.loop_below_ceiling (os : List Bessel.StepResult) :
    ∀ n : Int, n < Bessel.NDOF_STOP →
      ∀ log ∈ Bessel.loop n os, log.ndofs < Bessel.NDOF_STOP := by
  induction os with
  | nil => intro n _ log h; simp [Bessel.loop, do_while] at h
  | cons o os ih =>
    intro n hn log h
    simp only [Bessel.loop, do_while, List.mem_cons] at h
    rcases h with h | h
    · rw [h]
      unfold Bessel.step
      split <;> exact hn
    · split at h
      · simp at h
      · rename_i hd
        refine ih _ ?_ log h
        by_cases he : o.err_est < Bessel.ERR_STOP
        · simp [Bessel.step, he] at hd
        · simpa [Bessel.step, he] using hd

/-- C17, as amended (the DOF ceiling): in every step of crack, a total DOF count
at or above `NDOF_STOP` at the stop-or-refine decision stops the loop in that
step without a call of `adapt`.  Bessel tests the ceiling only after `adapt`,
on the count `assign_dofs` returns, and ends the loop after that step exactly
when the count is at or above `NDOF_STOP`; so, when the initial DOF count is
below `NDOF_STOP`, every step of bessel takes its decision below the ceiling:
no refinement is applied once the ceiling has been reached. -/
theorem dof_ceiling (n : Int) (bos : List Bessel.StepResult)
    (st : Int × Int) (cos : List Crack.StepResult) (hn : n < Bessel.NDOF_STOP) :
    ((∀ log ∈ Crack.loop st cos, log.ndofs ≥ Crack.NDOF_STOP →
        Event.adapt ∉ log.events ∧ log.done = true) ∧
      ends_when_done (Crack.loop st cos)) ∧
    ((∀ (k : Int) (o : Bessel.StepResult), ¬ o.err_est < Bessel.ERR_STOP →
        ((Bessel.step k o).1.done = true ↔ o.ndofs ≥ Bessel.NDOF_STOP)) ∧
      (∀ log ∈ Bessel.loop n bos, log.ndofs < Bessel.NDOF_STOP) ∧
      ends_when_done (Bessel.loop n bos)) := by
  refine ⟨⟨?_, do_while_ends _ _ _⟩, ?_, Bessel.loop_below_ceiling bos n hn,
    do_while_ends _ _ _⟩
  · intro log hlog
    obtain ⟨st', o, rfl⟩ := mem_do_while _ _ _ _ hlog
    unfold Crack.step
    by_cases h : o.err_est < Crack.ERR_STOP ∨ st'.1 + st'.2 ≥ Crack.NDOF_STOP
    · simp [h]
    · simp only [h, if_false]
      push_neg at h
      intro h2
      exact absurd h2 (not_le.2 h.2)
  · intro k o h
    unfold Bessel.step
    simp [h]

/-- Bessel started with 100 DOFs: the first step refines to 50000 DOFs and ends
the loop, so the second set of returns is never used; crack entered with
30000 + 20000 DOFs stops at once without `adapt`. -/
theorem dof_ceiling_witness :
    Bessel.loop 100 [⟨1, 50000⟩, ⟨1, 60000⟩]
      = [⟨1, 100, [.assemble, .solve, .ref_assemble, .ref_solve, .calc_error, .adapt,
          .assign_dofs 0], true⟩] ∧
    Crack.loop (30000, 20000) [⟨1, 60000, 60000⟩]
      = [⟨1, 50000, [.assemble, .solve, .ref_assemble, .ref_solve, .calc_error], true⟩] ∧
    (∀ log ∈ Bessel.loop 100 [⟨1, 50000⟩, ⟨1, 60000⟩], log.ndofs < Bessel.NDOF_STOP) ∧
    (∀ log ∈ Crack.loop (30000, 20000) [⟨1, 60000, 60000⟩], log.ndofs ≥ Crack.NDOF_STOP →
      Event.adapt ∉ log.events ∧ log.done = true) :=
  have h := dof_ceiling 100 [⟨1, 50000⟩, ⟨1, 60000⟩] (30000, 20000) [⟨1, 60000, 60000⟩]
    (by decide)
  ⟨by simp [Bessel.loop, do_while, Bessel.step, Bessel.ERR_STOP, Bessel.NDOF_STOP]; norm_num,
    by simp [Crack.loop, do_while, Crack.step, Crack.ERR_STOP, Crack.NDOF_STOP],
    h.2.2.1, h.1.1⟩

/-- C17, as stated, fails in bessel: entered with 50000 DOFs (at or above
`NDOF_STOP = 40000`) and an error estimate of 1 percent (not below `ERR_STOP`),
the first step takes its decision with the ceiling reached and calls `adapt`. -/
theorem dof_ceiling_counterexample :
    ∃ log ∈ Bessel.loop 50000 [⟨1, 60000⟩],
      log.ndofs ≥ Bessel.NDOF_STOP ∧ Event.adapt ∈ log.events :=
  ⟨⟨1, 50000, [.assemble, .solve, .ref_assemble, .ref_solve, .calc_error, .adapt,
      .assign_dofs 0], true⟩,
    by simp [Bessel.loop, do_while, Bessel.step, Bessel.ERR_STOP, Bessel.NDOF_STOP]; norm_num,
    by decide, by decide⟩

/-- The monitor runs through a trace piece by piece. -/
theorem monitor_append (spaces : List Nat) (a b : List Event) :
    ∀ fresh, monitor spaces fresh (a ++ b)
      = (monitor spaces fresh a).bind (fun f => monitor spaces f b) := by
  induction a with
  | nil => intro fresh; simp [monitor]
  | cons ev t ih =>
    intro fresh
    rw [List.cons_append]
    cases ev with
    | assemble =>
      simp only [monitor]
      split
      · exact ih _
      · rfl
    | adapt => simp only [monitor]; exact ih _
    | assign_dofs sp => simp only [monitor]; exact ih _
    | solve => simp only [monitor]; exact ih _
    | ref_project => simp only [monitor]; exact ih _
    | ref_assemble => simp only [monitor]; exact ih _
    | ref_solve => simp only [monitor]; exact ih _
    | project => simp only [monitor]; exact ih _
    | calc_error => simp only [monitor]; exact ih _

/-- A trace the monitor accepts has no assembly against a stale numbering,
counting the spaces in `fresh` as numbered at its start. -/
theorem monitor_sound (spaces : List Nat) (t : List Event) :
    ∀ (fresh f : List Nat), monitor spaces fresh t = some f →
      ∀ pre post, t = pre ++ Event.assemble :: post → ∀ sp ∈ spaces,
        (sp ∈ fresh ∧ Event.adapt ∉ pre) ∨
        ∃ a b, pre = a ++ Event.assign_dofs sp :: b ∧ Event.adapt ∉ b := by
  induction t with
  | nil => intro fresh f _ pre post h; simp at h
  | cons ev t ih =>
    intro fresh f hm pre post h sp hsp
    cases pre with
    | nil =>
      simp only [List.nil_append, List.cons.injEq] at h
      obtain ⟨rfl, -⟩ := h
      simp only [monitor] at hm
      split at hm
      · rename_i hall
        rw [List.all_eq_true] at hall
        exact Or.inl ⟨by simpa using hall sp hsp, by simp⟩
      · cases hm
    | cons x pre' =>
      simp only [List.cons_append, List.cons.injEq] at h
      obtain ⟨rfl, ht⟩ := h
      cases ev with
      | adapt =>
        simp only [monitor] at hm
        rcases ih [] f hm pre' post ht sp hsp with ⟨h1, -⟩ | ⟨a, b, h1, h2⟩
        · simp at h1
        · exact Or.inr ⟨Event.adapt :: a, b, by simp [h1], h2⟩
      | assign_dofs sp' =>
        simp only [monitor] at hm
        rcases ih (sp' :: fresh) f hm pre' post ht sp hsp with ⟨h1, h2⟩ | ⟨a, b, h1, h2⟩
        · rcases List.mem_cons.1 h1 with h3 | h3
          · exact Or.inr ⟨[], pre', by simp [h3], h2⟩
          · exact Or.inl ⟨h3, by simpa using h2⟩
        · exact Or.inr ⟨Event.assign_dofs sp' :: a, b, by simp [h1], h2⟩
      | assemble =>
        simp only [monitor] at hm
        split at hm
        · rcases ih fresh f hm pre' post ht sp hsp with ⟨h1, h2⟩ | ⟨a, b, h1, h2⟩
          · exact Or.inl ⟨h1, by simpa using h2⟩
          · exact Or.inr ⟨Event.assemble :: a, b, by simp [h1], h2⟩
        · cases hm
      | solve =>
        simp only [monitor] at hm
        rcases ih fresh f hm pre' post ht sp hsp with ⟨h1, h2⟩ | ⟨a, b, h1, h2⟩
        · exact Or.inl ⟨h1, by simpa using h2⟩
        · exact Or.inr ⟨Event.solve :: a, b, by simp [h1], h2⟩
      | ref_project =>
        simp only [monitor] at hm
        rcases ih fresh f hm pre' post ht sp hsp with ⟨h1, h2⟩ | ⟨a, b, h1, h2⟩
        · exact Or.inl ⟨h1, by simpa using h2⟩
        · exact Or.inr ⟨Event.ref_project :: a, b, by simp [h1], h2⟩
      | ref_assemble =>
        simp only [monitor] at hm
        rcases ih fresh f hm pre' post ht sp hsp with ⟨h1, h2⟩ | ⟨a, b, h1, h2⟩
        · exact Or.inl ⟨h1, by simpa using h2⟩
        · exact Or.inr ⟨Event.ref_assemble :: a, b, by simp [h1], h2⟩
      | ref_solve =>
        simp only [monitor] at hm
        rcases ih fresh f hm pre' post ht sp hsp with ⟨h1, h2⟩ | ⟨a, b, h1, h2⟩
        · exact Or.inl ⟨h1, by simpa using h2⟩
        · exact Or.inr ⟨Event.ref_solve :: a, b, by simp [h1], h2⟩
      | project =>
        simp only [monitor] at hm
        rcases ih fresh f hm pre' post ht sp hsp with ⟨h1, h2⟩ | ⟨a, b, h1, h2⟩
        · exact Or.inl ⟨h1, by simpa using h2⟩
        · exact Or.inr ⟨Event.project :: a, b, by simp [h1], h2⟩
      | calc_error =>
        simp only [monitor] at hm
        rcases ih fresh f hm pre' post ht sp hsp with ⟨h1, h2⟩ | ⟨a, b, h1, h2⟩
        · exact Or.inl ⟨h1, by simpa using h2⟩
        · exact Or.inr ⟨Event.calc_error :: a, b, by simp [h1], h2⟩

/-- A trace the monitor accepts from the start has no assembly against a stale
numbering. -/
theorem monitor_no_stale (spaces : List Nat) (t : List Event) (f : List Nat)
    (h : monitor spaces [] t = some f) : no_stale_assembly spaces t := by
  intro pre post ht sp hsp
  rcases monitor_sound spaces t [] f h pre post ht sp hsp with ⟨h1, -⟩ | h2
  · simp at h1
  · exact h2

/-- The monitor accepts the loop of bessel entered with the space numbered. -/
theorem Bessel.monitor_accepts_bessel (os : List Bessel.StepResult) :
    ∀ (n : Int) (fresh : List Nat), 0 ∈ fresh →
      ∃ f, monitor [0] fresh (events_of (Bessel.loop n os)) = some f := by
  induction os with
  | nil => intro n fresh _; exact ⟨fresh, rfl⟩
  | cons o os ih =>
    intro n fresh h0
    simp only [Bessel.loop, do_while, events_of, monitor_append]
    by_cases he : o.err_est < Bessel.ERR_STOP
    · simp [Bessel.step, he, monitor, h0, events_of]
    · by_cases hd : Bessel.NDOF_STOP ≤ o.ndofs
      · simp [Bessel.step, he, monitor, h0, events_of, hd]
      · obtain ⟨f, hf⟩ := ih o.ndofs [0] (by simp)
        simp only [Bessel.loop] at hf
        simp [Bessel.step, he, monitor, h0, hd, hf]

/-- The monitor accepts the loop of crack entered with both spaces numbered. -/
theorem Crack.monitor_accepts_crack (os : List Crack.StepResult) :
    ∀ (st : Int × Int) (fresh : List Nat), 0 ∈ fresh → 1 ∈ fresh →
      ∃ f, monitor [0, 1] fresh (events_of (Crack.loop st os)) = some f := by
  induction os with
  | nil => intro st fresh _ _; exact ⟨fresh, rfl⟩
  | cons o os ih =>
    intro st fresh h0 h1
    simp only [Crack.loop, do_while, events_of, monitor_append]
    by_cases he : o.err_est < Crack.ERR_STOP ∨ st.1 + st.2 ≥ Crack.NDOF_STOP
    · simp [Crack.step, he, monitor, h0, h1, events_of]
    · by_cases hd : Crack.NDOF_STOP ≤ o.xdofs + o.ydofs
      · simp [Crack.step, he, monitor, h0, h1, events_of, hd]
      · obtain ⟨f, hf⟩ := ih (o.xdofs, o.ydofs) [1, 0] (by simp) (by simp)
        simp only [Crack.loop] at hf
        simp [Crack.step, he, monitor, h0, h1, hd, hf]

/-- C18 (no assembly against a stale numbering): in the recorded calls of bessel
and of crack, every `assemble` of the coarse system, the first one included, is
preceded by an `assign_dofs` on every space of the system (one space in bessel,
`xdisp` and `ydisp` in crack) with no `adapt` in between; so every `adapt` is
followed by `assign_dofs` on every space before the next `assemble`. -/
theorem no_assembly_on_stale_numbering (n : Int) (bos : List Bessel.StepResult)
    (st : Int × Int) (cos : List Crack.StepResult) :
    no_stale_assembly [0] (Bessel.main n bos) ∧
    no_stale_assembly [0, 1] (Crack.main st cos) := by
  constructor
  · obtain ⟨f, hf⟩ := Bessel.monitor_accepts_bessel bos n [0] (by simp)
    exact monitor_no_stale [0] _ f (by simpa [Bessel.main, monitor] using hf)
  · obtain ⟨f, hf⟩ := Crack.monitor_accepts_crack cos st [1, 0] (by simp) (by simp)
    exact monitor_no_stale [0, 1] _ f (by simpa [Crack.main, monitor] using hf)

/-! ## The line-singularity test -/

/-- C19 (line-singularity test): `main` returns `ERROR_SUCCESS = 0` if and only
if the DOF count after the adaptive solve is at most 150, and
`ERROR_FAILURE = -1` otherwise; the documented result of 147 DOFs is accepted. -/
theorem line_singularity_result (ndof : Int) :
    (LineSingularity.main ndof = LineSingularity.ERROR_SUCCESS ↔ ndof ≤ 150) ∧
    (¬ ndof ≤ 150 → LineSingularity.main ndof = LineSingularity.ERROR_FAILURE) ∧
    LineSingularity.ERROR_SUCCESS = 0 ∧ LineSingularity.ERROR_FAILURE = -1 ∧
    LineSingularity.main 147 = LineSingularity.ERROR_SUCCESS := by
  refine ⟨?_, ?_, rfl, rfl, by decide⟩
  · unfold LineSingularity.main
    by_cases h : ndof ≤ 150
    · simp [h]
    · simp [h, LineSingularity.ERROR_SUCCESS, LineSingularity.ERROR_FAILURE]
  · intro h
    simp [LineSingularity.main, h]

/-! ## The size of the path index -/

namespace Transformable

variable {α : Type}

/-- Pushes of sons in `0..7` that fit on the stack complete, whatever the shape
of the active element, and append to the path index the digits of the sons. -/
theorem run_pushes_index [Mul α] [Add α] (tb : Tables α) (e : Element) (S : List Int) :
    ∀ (s : Transformable α) (P : List Int), s.element = some e → s.top = P.length →
      s.sub_idx = encode P → (∀ x ∈ P, 0 ≤ x ∧ x ≤ 7) → (∀ x ∈ S, 0 ≤ x ∧ x ≤ 7) →
      P.length + S.length ≤ 20 →
      ∃ r, run tb s (S.map Call.push) = .done r ∧ r.sub_idx = encode (P ++ S) ∧
        r.top = (P ++ S).length := by
  induction S with
  | nil =>
    intro s P _ htop hidx _ _ _
    exact ⟨s, rfl, by simpa using hidx, by simpa using htop⟩
  | cons a S ih =>
    intro s P hel htop hidx hP hS hlen
    simp only [List.length_cons] at hlen
    obtain ⟨s1, h1, ht1, -, hel1, hi1⟩ := push_ready tb s a e hel (by omega)
    have ha := hS a (by simp)
    have hb := encode_bound P hP
    have hp : 8 ^ (P.length + 1) ≤ 8 ^ 20 := Nat.pow_le_pow_right (by norm_num) (by omega)
    have hidx1 : s1.sub_idx = encode (P ++ [a]) := by
      rw [hi1, hidx, encode_append]
      exact push_idx_exact _ a (by norm_num at hp ⊢; omega) ha
    obtain ⟨r, hr, hri, hrt⟩ := ih s1 (P ++ [a]) (by rw [hel1, hel])
      (by rw [ht1, htop]; simp) hidx1
      (by
        intro x hx
        rcases List.mem_append.1 hx with hx | hx
        · exact hP x hx
        · simp at hx; subst hx; exact ha)
      (fun x hx => hS x (by simp [hx])) (by simp; omega)
    refine ⟨r, ?_, by simpa using hri, by simpa using hrt⟩
    simp only [List.map_cons, run, step, h1]
    exact hr

/-- C20 (largest path index up to depth 10): for every sequence of at most 10
pushes with sons in `0..7` applied after `reset_transform`, the pushes complete
and `get_transform() <= 0x49249248 = 1227133512`; ten pushes of son 7 attain
this value. -/
theorem max_index_depth_ten [Mul α] [Add α] [One α] [Zero α] (tb : Tables α) (e : Element)
    (S : List Int) (s0 : Transformable α) (hel : s0.element = some e)
    (hS : ∀ x ∈ S, 0 ≤ x ∧ x ≤ 7) (hlen : S.length ≤ 10) :
    (∃ r, run tb (reset_transform s0) (S.map Call.push) = .done r ∧
      get_transform r ≤ 0x49249248) ∧
    (0x49249248 : Nat) = 1227133512 ∧
    (∃ r, run tb (reset_transform s0) ((List.replicate 10 (7 : Int)).map Call.push) = .done r ∧
      get_transform r = 0x49249248) := by
  refine ⟨?_, by norm_num, ?_⟩
  · obtain ⟨r, hr, hi, -⟩ := run_pushes_index tb e S (reset_transform s0) [] hel rfl rfl
      (by simp) hS (by simp; omega)
    refine ⟨r, hr, ?_⟩
    simp only [List.nil_append] at hi
    have hb := encode_bound S hS
    have hp : 8 ^ (S.length + 1) ≤ 8 ^ 11 := Nat.pow_le_pow_right (by norm_num) (by omega)
    rw [get_transform, hi]
    norm_num at hp ⊢
    omega
  · obtain ⟨r, hr, hi, -⟩ := run_pushes_index tb e (List.replicate 10 (7 : Int))
      (reset_transform s0) [] hel rfl rfl (by simp)
      (by intro x hx; rw [List.eq_of_mem_replicate hx]; omega) (by simp)
    refine ⟨r, hr, ?_⟩
    rw [get_transform, hi]
    decide

/-- On a triangle too (where the sons 4..7 are outside the valid range): a push
of son 7 after a reset gives the index 8, below the bound. -/
theorem max_index_depth_ten_witness :
    (∃ r, run sample_tables (reset_transform sample_state_tri) [.push 7] = .done r ∧
      get_transform r = 8 ∧ get_transform r ≤ 0x49249248) ∧
    (∃ r, run sample_tables (reset_transform sample_state)
        ((List.replicate 10 (7 : Int)).map Call.push) = .done r ∧
      get_transform r = 1227133512) := by
  have h := max_index_depth_ten sample_tables sample_quad [7] sample_state rfl
    (by decide) (by decide)
  refine ⟨⟨_, rfl, rfl, by decide⟩, ?_⟩
  obtain ⟨r, hr, hi⟩ := h.2.2
  exact ⟨r, hr, by rw [hi]⟩

/-- The path index is the sum of its digits times the powers of 8. -/
theorem foldl_index_sum (S : List Int) :
    ∀ a : Nat, S.foldl (fun i son => 8 * i + son.toNat + 1) a
      = a * 8 ^ S.length + exact_index_sum S := by
  induction S with
  | nil => intro a; simp [exact_index_sum]
  | cons x S ih =>
    intro a
    rw [List.foldl_cons, ih, exact_index_sum, List.length_cons, pow_succ]
    ring

theorem encode_eq_sum (S : List Int) : encode S = exact_index_sum S := by
  have := foldl_index_sum S 0
  simpa [encode] using this

/-- A run of pushes and pops leaves the active element as it was. -/
theorem run_keeps_element [Mul α] [Add α] (tb : Tables α) (calls : List Call) :
    ∀ s r : Transformable α, run tb s calls = .done r → r.element = s.element := by
  induction calls with
  | nil => intro s r h; simp only [run] at h; cases h; rfl
  | cons c cs ih =>
    intro s r h
    simp only [run] at h
    split at h
    · rename_i s1 hstep
      rw [ih s1 r h]
      cases c with
      | push son => exact (push_done_fields tb s s1 son hstep).2.2.2.1
      | pop => exact (pop_done_fields s s1 hstep).2.2.2.1
    · cases h

/-- C21 (no wrap-around of the 64-bit index): for every sequence of at most 20
pushes with sons in `0..7` applied after `reset_transform`, at each push the
exact value `8 * old + son + 1` is at most `(2^63 - 8) / 7`, which is below
`2^64`, the left shift of the old index loses no bit, and the push stores that
exact value; at the end `sub_idx` is the exact sum of `(s_k + 1) * 8^(n-k)`. -/
theorem index_never_wraps [Mul α] [Add α] [One α] [Zero α] (tb : Tables α) (e : Element)
    (S : List Int) (s0 : Transformable α) (hel : s0.element = some e)
    (hS : ∀ x ∈ S, 0 ≤ x ∧ x ≤ 7) (hlen : S.length ≤ 20) :
    (∀ A son B, S = A ++ son :: B →
      ∃ s, run tb (reset_transform s0) (A.map Call.push) = .done s ∧
        8 * get_transform s + son.toNat + 1 ≤ (2 ^ 63 - 8) / 7 ∧
        (get_transform s <<< 3) % UINT64_MOD = get_transform s <<< 3 ∧
        ∃ s', push_transform tb s son = .done s' ∧
          get_transform s' = 8 * get_transform s + son.toNat + 1) ∧
    (2 ^ 63 - 8) / 7 < 2 ^ 64 ∧
    ∃ r, run tb (reset_transform s0) (S.map Call.push) = .done r ∧
      get_transform r = exact_index_sum S := by
  refine ⟨?_, by norm_num, ?_⟩
  · intro A son B hAB
    have hA : ∀ x ∈ A, 0 ≤ x ∧ x ≤ 7 := fun x hx => hS x (by rw [hAB]; simp [hx])
    have hson : 0 ≤ son ∧ son ≤ 7 := hS son (by rw [hAB]; simp)
    have hAl : A.length ≤ 19 := by
      have : S.length = A.length + (B.length + 1) := by rw [hAB]; simp
      omega
    obtain ⟨s, hs, hi, ht⟩ := run_pushes_index tb e A (reset_transform s0) [] hel rfl rfl
      (by simp) hA (by simp; omega)
    simp only [List.nil_append] at hi ht
    have hb := encode_bound A hA
    have hp : 8 ^ (A.length + 1) ≤ 8 ^ 20 := Nat.pow_le_pow_right (by norm_num) (by omega)
    have hel' : s.element = some e := by
      rw [run_keeps_element tb _ _ s hs]
      exact hel
    obtain ⟨s', hp', -, -, -, hidx⟩ := push_ready tb s son e hel' (by rw [ht]; omega)
    have hex := push_idx_exact (encode A) son (by norm_num at hp ⊢; omega) hson
    refine ⟨s, hs, ?_, ?_, s', hp', ?_⟩
    · rw [get_transform, hi]
      norm_num at hp ⊢
      omega
    · rw [get_transform, hi, Nat.shiftLeft_eq]
      unfold UINT64_MOD
      apply Nat.mod_eq_of_lt
      norm_num at hp ⊢
      omega
    · rw [get_transform, hidx, get_transform, hi]
      exact hex
  · obtain ⟨r, hr, hi, -⟩ := run_pushes_index tb e S (reset_transform s0) [] hel rfl rfl
      (by simp) hS (by simp; omega)
    simp only [List.nil_append] at hi
    exact ⟨r, hr, by rw [get_transform, hi, encode_eq_sum]⟩

/-- Twenty pushes of son 7 on a quadrilateral reach the bound exactly: the
index is `(2^63 - 8) / 7 = 1317624576693539400`. -/
theorem index_never_wraps_witness :
    exact_index_sum (List.replicate 20 7) = 1317624576693539400 ∧
    (2 ^ 63 - 8) / 7 = 1317624576693539400 ∧
    ∃ r, run sample_tables (reset_transform sample_state)
        ((List.replicate 20 (7 : Int)).map Call.push) = .done r ∧
      get_transform r = exact_index_sum (List.replicate 20 7) :=
  ⟨by decide, by norm_num,
    (index_never_wraps sample_tables sample_quad (List.replicate 20 7) sample_state rfl
      (by intro x hx; rw [List.eq_of_mem_replicate hx]; omega) (by simp)).2.2⟩

/-- Every level contributes at least 1 to its digit of the path index. -/
theorem encode_lower (P : List Int) : 8 ^ P.length ≤ 7 * encode P + 1 := by
  induction P using List.reverseRecOn with
  | nil => simp [encode]
  | append_singleton l a ih =>
    rw [encode_append, List.length_append, List.length_singleton, pow_succ]
    omega

/-- A descended state holds on its stack a sequence of sons in `0..7` whose
length is the depth and whose path index is `sub_idx`. -/
theorem descended_path [Mul α] [Add α] [One α] [Zero α] (tb : Tables α)
    (s : Transformable α) (h : Descended tb s) :
    ∃ P : List Int, s.top = P.length ∧ P.length ≤ 20 ∧ s.sub_idx = encode P ∧
      ∀ x ∈ P, 0 ≤ x ∧ x ≤ 7 := by
  induction h with
  | reset s0 => exact ⟨[], rfl, by simp, rfl, by simp⟩
  | push s1 s2 son _ hson hp ih =>
    obtain ⟨P, htop, hlen, hidx, hP⟩ := ih
    obtain ⟨hlt, h2, -, -, h5⟩ := push_done_fields tb s1 s2 son hp
    have hb := encode_bound P hP
    have hpw : 8 ^ (P.length + 1) ≤ 8 ^ 20 := Nat.pow_le_pow_right (by norm_num) (by omega)
    refine ⟨P ++ [son], by rw [h2, htop]; simp, by simp; omega, ?_, ?_⟩
    · rw [h5, hidx, encode_append]
      exact push_idx_exact _ son (by norm_num at hpw ⊢; omega) hson
    · intro x hx
      rcases List.mem_append.1 hx with hx | hx
      · exact hP x hx
      · simp at hx; subst hx; exact hson
  | pop s1 s2 _ hp ih =>
    obtain ⟨P, htop, hlen, hidx, hP⟩ := ih
    have hpos := pop_done_inv s1 s2 hp
    rw [pop_eq s1 hpos] at hp
    have heq := Outcome.done.inj hp
    subst heq
    rcases List.eq_nil_or_concat P with hnil | ⟨q, a, hq⟩
    · simp [hnil] at htop; omega
    · rw [List.concat_eq_append] at hq
      subst hq
      simp only [List.length_append, List.length_singleton] at htop hlen
      have hq7 : ∀ x ∈ q, 0 ≤ x ∧ x ≤ 7 := fun x hx => hP x (by simp [hx])
      have ha := hP a (by simp)
      have hb := encode_bound q hq7
      have hpw : 8 ^ (q.length + 1) ≤ 8 ^ 20 := Nat.pow_le_pow_right (by norm_num) (by omega)
      refine ⟨q, ?_, by omega, ?_, hq7⟩
      · show s1.top - 1 = _
        rw [htop]; push_cast; ring
      · show ((s1.sub_idx + (UINT64_MOD - 1)) % UINT64_MOD) >>> 3 = encode q
        rw [hidx, encode_append]
        exact pop_idx_exact _ a (by norm_num at hpw ⊢; omega) ha

/-- C22 (path index and depth in step): in every state reachable from
`reset_transform` by pushes with sons in `0..7` and pops that do not stop, with
`d = get_depth()`, `(8^d - 1) / 7 <= get_transform() <= 8 * (8^d - 1) / 7`; so
`get_transform()` is 0 exactly at depth 0, and when a pop is allowed (depth at
least 1) the index is at least 1 and below `2^64`: `sub_idx - 1` does not
underflow. -/
theorem index_and_depth_in_step [Mul α] [Add α] [One α] [Zero α] (tb : Tables α)
    (s : Transformable α) (h : Descended tb s) :
    0 ≤ get_depth s ∧
    (8 ^ (get_depth s).toNat - 1) / 7 ≤ get_transform s ∧
    get_transform s ≤ 8 * (8 ^ (get_depth s).toNat - 1) / 7 ∧
    (get_transform s = 0 ↔ get_depth s = 0) ∧
    (∀ s', pop_transform s = .done s' →
      1 ≤ get_transform s ∧ get_transform s < UINT64_MOD ∧
      (get_transform s + (UINT64_MOD - 1)) % UINT64_MOD = get_transform s - 1) := by
  obtain ⟨P, htop, hlen, hidx, hP⟩ := descended_path tb s h
  have hd : (get_depth s).toNat = P.length := by rw [get_depth, htop]; simp
  have hlo := encode_lower P
  have hhi := encode_bound P hP
  have hpos : 1 ≤ 8 ^ P.length := Nat.one_le_pow _ _ (by norm_num)
  rw [pow_succ] at hhi
  have h1 : (8 ^ P.length - 1) / 7 ≤ encode P := by
    apply Nat.div_le_of_le_mul
    omega
  have h2 : encode P ≤ 8 * (8 ^ P.length - 1) / 7 := by
    rw [Nat.le_div_iff_mul_le (by norm_num)]
    omega
  have h20 : 8 ^ P.length ≤ 8 ^ 20 := Nat.pow_le_pow_right (by norm_num) hlen
  refine ⟨by rw [get_depth, htop]; omega, ?_, ?_, ?_, ?_⟩
  · rw [hd, get_transform, hidx]; exact h1
  · rw [hd, get_transform, hidx]; exact h2
  · rw [get_transform, hidx, get_depth, htop]
    constructor
    · intro h0
      have : 8 ^ P.length ≤ 1 := by omega
      have hlen0 : P.length = 0 := by
        by_contra hne
        have : 8 ^ 1 ≤ 8 ^ P.length := Nat.pow_le_pow_right (by norm_num) (by omega)
        omega
      simp [hlen0]
    · intro h0
      have hlen0 : P.length = 0 := by exact_mod_cast h0
      have : P = [] := List.eq_nil_of_length_eq_zero hlen0
      subst this
      rfl
  · intro s' hp
    have hpos' := pop_done_inv s s' hp
    have hl1 : 1 ≤ P.length := by omega
    have h8 : 8 ^ 1 ≤ 8 ^ P.length := Nat.pow_le_pow_right (by norm_num) hl1
    rw [get_transform, hidx]
    unfold UINT64_MOD
    norm_num at h20 h8 ⊢
    omega

/-- One push of son 7 on a triangle (a son in `0..7`, whatever the shape): at
depth 1 the index 8 lies between `(8 - 1) / 7 = 1` and `8 * (8 - 1) / 7 = 8`,
is not 0, and the pop that completes subtracts 1 without underflow. -/
theorem index_and_depth_in_step_witness :
    ∃ s, run sample_tables (reset_transform sample_state_tri) [.push 7] = .done s ∧
      Descended sample_tables s ∧ get_depth s = 1 ∧ get_transform s = 8 ∧
      (8 ^ (get_depth s).toNat - 1) / 7 ≤ get_transform s ∧
      get_transform s ≤ 8 * (8 ^ (get_depth s).toNat - 1) / 7 ∧
      (∃ s', pop_transform s = .done s') := by
  refine ⟨_, rfl, ?_⟩
  have hd : Descended sample_tables
      (run sample_tables (reset_transform sample_state_tri) [.push 7]).state :=
    Descended.push _ _ 7 (Descended.reset sample_state_tri) (by decide) rfl
  have h := index_and_depth_in_step sample_tables _ hd
  exact ⟨hd, rfl, rfl, h.2.1, h.2.2.1, ⟨_, rfl⟩⟩

/-! ## Reading the path index back -/

/-- Repeated decoding of the path index of sons in `0..7` reads the sons back,
last son first, and then stops. -/
theorem unpack_encode (S : List Int) (h : ∀ son ∈ S, 0 ≤ son ∧ son ≤ 7) :
    ∀ fuel : Nat, S.length ≤ fuel → unpack fuel (encode S) = S.reverse := by
  induction S using List.reverseRecOn with
  | nil =>
    intro fuel _
    cases fuel <;> simp [unpack, encode]
  | append_singleton l a ih =>
    intro fuel hf
    have hl : ∀ son ∈ l, 0 ≤ son ∧ son ≤ 7 := fun x hx => h x (by simp [hx])
    have ha := h a (by simp)
    simp only [List.length_append, List.length_singleton] at hf
    obtain ⟨n, rfl⟩ : ∃ n, fuel = n + 1 := ⟨fuel - 1, by omega⟩
    have hpos : encode (l ++ [a]) > 0 := by rw [encode_append]; omega
    obtain ⟨h1, h2⟩ := decode_step (encode l) a ha
    rw [unpack, if_pos hpos, encode_append, h1, h2, ih hl n (by omega)]
    simp

/-- Going back one level per pushed son ends at the index 0. -/
theorem parent_iterate_encode (S : List Int) (h : ∀ son ∈ S, 0 ≤ son ∧ son ≤ 7) :
    (fun x : Nat => (x - 1) >>> 3)^[S.length] (encode S) = 0 := by
  induction S using List.reverseRecOn with
  | nil => simp [encode]
  | append_singleton l a ih =>
    have hl : ∀ son ∈ l, 0 ≤ son ∧ son ≤ 7 := fun x hx => h x (by simp [hx])
    have ha := h a (by simp)
    obtain ⟨h1, -⟩ := decode_step (encode l) a ha
    rw [List.length_append, List.length_singleton, Function.iterate_succ_apply,
      encode_append]
    simp only [h1]
    exact ih hl

/-- C23 (the last son is recoverable): after a completed `push_transform(son)`
with `son` in `0..7` from a reachable state with path index `i`, the new index
`x` satisfies `(x - 1) & 7 = son` and `(x - 1) >> 3 = i`; and applied repeatedly
to the index of a pushed sequence, this decoding returns the sons in reverse
order and ends at 0. -/
theorem last_son_recoverable [Mul α] [Add α] [One α] [Zero α] (tb : Tables α)
    (s s' : Transformable α) (son : Int) (hs : Descended tb s)
    (hson : 0 ≤ son ∧ son ≤ 7) (hp : push_transform tb s son = .done s') :
    (((get_transform s' - 1) &&& 7 : Nat) : Int) = son ∧
    (get_transform s' - 1) >>> 3 = get_transform s ∧
    (∀ (e : Element) (S : List Int) (s0 : Transformable α), s0.element = some e →
      (∀ x ∈ S, 0 ≤ x ∧ x ≤ 7) → S.length ≤ 20 →
      ∃ r, run tb (reset_transform s0) (S.map Call.push) = .done r ∧
        (∀ k, unpack (S.length + k) (get_transform r) = S.reverse) ∧
        (fun x : Nat => (x - 1) >>> 3)^[S.length] (get_transform r) = 0) := by
  obtain ⟨P, htop, hlen, hidx, hP⟩ := descended_path tb s hs
  obtain ⟨hlt, -, -, -, h5⟩ := push_done_fields tb s s' son hp
  have hb := encode_bound P hP
  have hpw : 8 ^ (P.length + 1) ≤ 8 ^ 20 := Nat.pow_le_pow_right (by norm_num) (by omega)
  have hx : get_transform s' = 8 * get_transform s + son.toNat + 1 := by
    rw [get_transform, h5, get_transform, hidx]
    exact push_idx_exact _ son (by norm_num at hpw ⊢; omega) hson
  obtain ⟨h1, h2⟩ := decode_step (get_transform s) son hson
  refine ⟨by rw [hx]; exact h2, by rw [hx]; exact h1, ?_⟩
  intro e S s0 hel hS hSl
  obtain ⟨r, hr, hi, -⟩ := run_pushes_index tb e S (reset_transform s0) [] hel rfl rfl
    (by simp) hS (by simp; omega)
  simp only [List.nil_append] at hi
  refine ⟨r, hr, fun k => ?_, ?_⟩
  · rw [get_transform, hi]
    exact unpack_encode S hS _ (by omega)
  · rw [get_transform, hi]
    exact parent_iterate_encode S hS

/-- Son 7 pushed at depth 1 of a quadrilateral with index 3 gives the index 32:
`(32 - 1) & 7 = 7` and `(32 - 1) >> 3 = 3`; the index 30 of the sons 2, 5
unpacks to 5, 2. -/
theorem last_son_recoverable_witness :
    get_transform sample_pushed = 3 ∧
    (∃ s', push_transform sample_tables sample_pushed 7 = .done s' ∧
      get_transform s' = 32 ∧ (get_transform s' - 1) &&& 7 = 7 ∧
      (get_transform s' - 1) >>> 3 = 3) ∧
    unpack 2 30 = [5, 2] ∧
    ∃ r, run sample_tables (reset_transform sample_state) [.push 2, .push 5] = .done r ∧
      (∀ k, unpack (2 + k) (get_transform r) = [5, 2]) := by
  have hd : Descended sample_tables sample_pushed :=
    Descended.push _ _ 2 (Descended.reset sample_state) (by decide) rfl
  have h := last_son_recoverable sample_tables sample_pushed _ 7 hd (by decide) rfl
  obtain ⟨r, hr, hu, -⟩ := h.2.2 sample_quad [2, 5] sample_state rfl (by decide) (by decide)
  exact ⟨rfl, ⟨_, rfl, rfl, Int.ofNat.inj h.1, h.2.1⟩, by decide, r, hr, hu⟩

/-! ## Stack discipline, the missing element -/

/-- A completed push writes the entry `stack[top + 1]` and no other. -/
theorem push_frame [Mul α] [Add α] (tb : Tables α) (s s' : Transformable α) (son : Int)
    (h : push_transform tb s son = .done s') :
    ∀ j : Int, j ≠ s.top + 1 → s'.stack j = s.stack j := by
  obtain ⟨hlt, hne⟩ := push_done_inv tb s s' son h
  obtain ⟨e, he⟩ := Option.ne_none_iff_exists'.1 hne
  have hnot : ¬ s.top ≥ 20 := by omega
  simp only [push_transform, he, hnot, if_false] at h
  have heq := Outcome.done.inj h
  subst heq
  intro j hj
  simp [write_m0, write_m1, write_t0, write_t1, hj]

/-- From construction on, `stack[0]` is the identity. -/
theorem constructed_stack_zero [Mul α] [Add α] [One α] [Zero α] (tb : Tables α)
    (s : Transformable α) (h : Constructed tb s) : s.stack 0 = identity_trf := by
  induction h with
  | ctor raw => exact reset_stack_zero _
  | set_active_element s e _ ih => exact ih
  | reset s _ _ => exact reset_stack_zero s
  | push s s' son hs hp ih =>
    have h0 := (constructed_inv tb s hs).1
    rw [push_frame tb s s' son hp 0 (by omega)]
    exact ih
  | pop s s' _ hp ih =>
    rw [(pop_done_fields s s' hp).2.2.2.2]
    exact ih

/-- C24 (stack discipline): in every state reached from construction by calls
that do not stop, `ctm` is the entry of `stack` at index `top`, `stack[0]` is
the identity, and a completed `push_transform` writes only `stack[top + 1]`:
every other entry, in particular every entry at an index up to the old `top`,
is as before; hence the transform current after the pop matching a push is the
one current before the push. -/
theorem stack_discipline [Mul α] [Add α] [One α] [Zero α] (tb : Tables α)
    (s : Transformable α) (h : Constructed tb s) :
    s.ctm = s.top ∧ get_ctm s = s.stack (get_depth s) ∧
    s.stack 0 = ⟨(1, 1), (0, 0)⟩ ∧
    (∀ son s', push_transform tb s son = .done s' →
      (∀ j : Int, j ≠ get_depth s + 1 → s'.stack j = s.stack j) ∧
      (∀ j : Int, j ≤ get_depth s → s'.stack j = s.stack j) ∧
      (∃ s'', pop_transform s' = .done s'' ∧ get_ctm s'' = get_ctm s)) := by
  obtain ⟨h0, h20, hc⟩ := constructed_inv tb s h
  refine ⟨hc, by rw [get_ctm, hc, get_depth], constructed_stack_zero tb s h, ?_⟩
  intro son s' hp
  have hf := push_frame tb s s' son hp
  obtain ⟨-, ht', -⟩ := push_done_fields tb s s' son hp
  have hpos : s'.top > 0 := by omega
  refine ⟨hf, fun j hj => hf j (by rw [get_depth] at hj; omega), _, pop_eq s' hpos, ?_⟩
  show s'.stack (s'.top - 1) = s.stack s.ctm
  rw [ht', hc, hf _ (by omega)]
  congr 1
  omega

/-- A constructed object given a quadrilateral, pushed with sons 2 and 5 and
popped once: `ctm` points at `stack[1]`, `stack[0]` is the identity, and a push
of son 7 followed by a pop gives back the current transform. -/
theorem stack_discipline_witness :
    ∃ s, run sample_tables (set_active_element (ctor sample_state) (some sample_quad))
        [.push 2, .push 5, .pop] = .done s ∧
      Constructed sample_tables s ∧ s.ctm = 1 ∧ get_depth s = 1 ∧
      s.stack 0 = ⟨(1, 1), (0, 0)⟩ ∧
      ∃ s' s'', push_transform sample_tables s 7 = .done s' ∧
        pop_transform s' = .done s'' ∧ s'.stack 1 = s.stack 1 ∧
        get_ctm s'' = get_ctm s := by
  refine ⟨_, rfl, ?_⟩
  have hc : Constructed sample_tables
      (run sample_tables (set_active_element (ctor sample_state) (some sample_quad))
        [.push 2, .push 5, .pop]).state := by
    have h0 : Constructed sample_tables
        (set_active_element (ctor sample_state) (some sample_quad)) :=
      Constructed.set_active_element _ _ (Constructed.ctor sample_state)
    exact run_constructed sample_tables [.push 2, .push 5, .pop] _ _ h0 rfl
  have h := stack_discipline sample_tables _ hc
  obtain ⟨hf, hle, s'', hpop, hctm⟩ := h.2.2.2 7 _ rfl
  exact ⟨hc, rfl, rfl, h.2.2.1, _, s'', rfl, hpop, hle 1 (by decide), hctm⟩

/-- Before an element other than `NULL` is set, there is no active element. -/
theorem unset_element [Mul α] [Add α] [One α] [Zero α] (tb : Tables α)
    (s : Transformable α) (h : Unset tb s) : s.element = none := by
  induction h with
  | ctor raw => rfl
  | set_null s _ _ => rfl
  | reset s _ ih => exact ih
  | push s s' son _ hp ih => rw [(push_done_fields tb s s' son hp).2.2.2.1]; exact ih
  | pop s s' _ hp ih => rw [(pop_done_fields s s' hp).2.2.2.1]; exact ih

/-- C25 (a push needs an active element): a newly constructed `Transformable`
has no active element, and in every state reached before a call of
`set_active_element` with an element other than `NULL`, `push_transform` stops
on `assert(element != NULL)` whatever the son index, leaving the state as it
was. -/
theorem push_needs_element [Mul α] [Add α] [One α] [Zero α] (tb : Tables α)
    (s raw : Transformable α) (son : Int) (h : Unset tb s) :
    get_active_element (ctor raw) = none ∧
    get_active_element s = none ∧
    push_transform tb s son = .failed .assert_element s := by
  have he := unset_element tb s h
  refine ⟨rfl, he, ?_⟩
  simp only [push_transform, he]

/-- A newly constructed object, reset: pushes of the sons 0 and 9 both stop on
the assertion and leave the depth at 0. -/
theorem push_needs_element_witness :
    Unset sample_tables (reset_transform (ctor sample_state)) ∧
    push_transform sample_tables (reset_transform (ctor sample_state)) 0
      = .failed .assert_element (reset_transform (ctor sample_state)) ∧
    push_transform sample_tables (reset_transform (ctor sample_state)) 9
      = .failed .assert_element (reset_transform (ctor sample_state)) ∧
    get_depth (reset_transform (ctor sample_state)) = 0 :=
  have hu : Unset sample_tables (reset_transform (ctor sample_state)) :=
    Unset.reset _ (Unset.ctor sample_state)
  ⟨hu, (push_needs_element sample_tables _ sample_state 0 hu).2.2,
    (push_needs_element sample_tables _ sample_state 9 hu).2.2, rfl⟩

end Transformable

/-! ## The examples, tutorials and tests -/

/-- C26 (boundary handling of the bessel example): `bc_types(marker)` is
`BC_ESSENTIAL` exactly for the markers 1 and 6 and `BC_NATURAL` for every other
marker, and for every marker classified as essential `bc_values`,
`bilinear_form_surf` and `linear_form_surf` return 0. -/
theorem bessel_boundary_conditions {κ δ : Type} [Zero κ] (impedance : Int → δ → δ → κ)
    (integral_b integral_l : EdgePos → κ) (marker : Int) (x y : δ) (ep : EdgePos) :
    (Bessel.bc_types marker = BCType.BC_ESSENTIAL ↔ marker = 1 ∨ marker = 6) ∧
    (¬ (marker = 1 ∨ marker = 6) → Bessel.bc_types marker = BCType.BC_NATURAL) ∧
    (Bessel.bc_types marker = BCType.BC_ESSENTIAL →
      Bessel.bc_values impedance marker x y = 0) ∧
    (Bessel.bc_types ep.marker = BCType.BC_ESSENTIAL →
      Bessel.bilinear_form_surf integral_b ep = 0 ∧
      Bessel.linear_form_surf integral_l ep = 0) := by
  have hiff : ∀ m : Int, Bessel.bc_types m = BCType.BC_ESSENTIAL ↔ m = 1 ∨ m = 6 := by
    intro m
    unfold Bessel.bc_types
    by_cases h : m = 1 ∨ m = 6
    · simp [h]
    · simp [h]
  refine ⟨hiff marker, ?_, ?_, ?_⟩
  · intro h
    simp [Bessel.bc_types, h]
  · intro h
    have := (hiff marker).1 h
    simp [Bessel.bc_values, this]
  · intro h
    have := (hiff ep.marker).1 h
    simp [Bessel.bilinear_form_surf, Bessel.linear_form_surf, this]

/-- The number of time steps of the saving-data tutorial. -/
theorem SavingData.nsteps_eq : SavingData.nsteps = 60 := by
  have h : SavingData.FINAL_TIME / SavingData.TAU + 1 / 2 = (121 / 2 : ℚ) := by
    unfold SavingData.FINAL_TIME SavingData.TAU
    norm_num
  unfold SavingData.nsteps SavingData.to_int
  rw [h, if_pos (by norm_num), Int.floor_eq_iff]
  constructor <;> norm_num

/-- C27 (the file that is visualised has been written): with
`FINAL_TIME = 18000`, `TAU = 300` and `OUTPUT_FREQUENCY = 20`, and the solver
succeeding in every step, `nsteps` is 60, the time loop runs the steps 1..60
and is left with `ts = 61`, linearizer data are saved exactly at the steps 20,
40 and 60, to `tsln_20.lin`, `tsln_40.lin` and `tsln_60.lin`, and the file
`tsln_60.lin` loaded after the loop is one of them. -/
theorem saved_file_is_loaded (solver_ok : Int → Bool) (hok : ∀ ts, solver_ok ts = true) :
    SavingData.nsteps = 60 ∧
    ∃ calls, SavingData.main solver_ok
        = some (calls ++ [SavingData.Action.load_data ("tsln_60.lin")], 61) ∧
      SavingData.solved_steps calls = (List.range 60).map (fun i => (i : Int) + 1) ∧
      SavingData.saved_files calls = ["tsln_20.lin", "tsln_40.lin", "tsln_60.lin"] ∧
      SavingData.saved_files calls
        = [SavingData.filename 20, SavingData.filename 40, SavingData.filename 60] ∧
      "tsln_60.lin" ∈ SavingData.saved_files calls := by
  have hfun : solver_ok = fun _ => true := funext hok
  subst hfun
  refine ⟨SavingData.nsteps_eq, ?_⟩
  unfold SavingData.main
  rw [SavingData.nsteps_eq]
  exact ⟨_, rfl, by decide, by decide, by decide, by decide⟩

/-- The tutorial run with a solver that succeeds in every step. -/
theorem saved_file_is_loaded_witness :
    SavingData.nsteps = 60 ∧
    ∃ calls, SavingData.main (fun _ => true)
        = some (calls ++ [SavingData.Action.load_data ("tsln_60.lin")], 61) ∧
      SavingData.solved_steps calls = (List.range 60).map (fun i => (i : Int) + 1) ∧
      SavingData.saved_files calls = ["tsln_20.lin", "tsln_40.lin", "tsln_60.lin"] ∧
      SavingData.saved_files calls
        = [SavingData.filename 20, SavingData.filename 40, SavingData.filename 60] ∧
      "tsln_60.lin" ∈ SavingData.saved_files calls :=
  saved_file_is_loaded (fun _ => true) (fun _ => rfl)

/-- C28 (the two stored time levels of the flame tutorial): a time step whose
Newton iteration converges, leaving `v` in `coeff_vec`, completes; after it
`t_prev_time_2` and `c_prev_time_2` hold what `t_prev_time_1` and
`c_prev_time_1` held before the step, and `t_prev_time_1` and `c_prev_time_1`
hold the solution just computed, built from `coeff_vec` on `tspace` and on
`cspace`; so after two steps the two levels are the last two solutions. -/
theorem flame_time_levels {V : Type} (st : Flame.State V) (v w : V) :
    (∃ st', Flame.step st (some v) = some st' ∧
      st'.t_prev_time_2 = st.t_prev_time_1 ∧ st'.c_prev_time_2 = st.c_prev_time_1 ∧
      st'.coeff_vec = v ∧
      st'.t_prev_time_1 = Flame.set_fe_solution Flame.SpaceId.tspace st'.coeff_vec ∧
      st'.c_prev_time_1 = Flame.set_fe_solution Flame.SpaceId.cspace st'.coeff_vec ∧
      st'.t_prev_time_1 = st'.t_prev_newton ∧ st'.c_prev_time_1 = st'.c_prev_newton ∧
      st'.current_time = st.current_time + Flame.TAU ∧ st'.ts = st.ts + 1) ∧
    (∃ st1 st2, Flame.step st (some v) = some st1 ∧ Flame.step st1 (some w) = some st2 ∧
      st2.t_prev_time_1 = Flame.set_fe_solution Flame.SpaceId.tspace w ∧
      st2.c_prev_time_1 = Flame.set_fe_solution Flame.SpaceId.cspace w ∧
      st2.t_prev_time_2 = Flame.set_fe_solution Flame.SpaceId.tspace v ∧
      st2.c_prev_time_2 = Flame.set_fe_solution Flame.SpaceId.cspace v) :=
  ⟨⟨_, rfl, rfl, rfl, rfl, rfl, rfl, rfl, rfl, rfl, rfl⟩,
    ⟨_, _, rfl, rfl, rfl, rfl, rfl, rfl⟩⟩

/-- C29 (the parameters of the neutronics test), evaluated on the code: the
constants agree with the documented values in `P_INIT`, `INIT_REF_NUM`,
`THRESHOLD`, `MESH_REGULARITY` and `CONV_EXP`, and differ from them in
`STRATEGY` (1, documented 0), `CAND_LIST` (`H2D_HP_ANISO`, documented
`HP_ANISO_P`), `ERR_STOP` (0.05, documented 4) and `NDOF_STOP` (60000,
documented 40000). -/
theorem neutronics_parameters_differ :
    (Neutronics.in_code.P_INIT = Neutronics.documented.P_INIT ∧
      Neutronics.in_code.INIT_REF_NUM = Neutronics.documented.INIT_REF_NUM ∧
      Neutronics.in_code.THRESHOLD = Neutronics.documented.THRESHOLD ∧
      Neutronics.in_code.MESH_REGULARITY = Neutronics.documented.MESH_REGULARITY ∧
      Neutronics.in_code.CONV_EXP = Neutronics.documented.CONV_EXP) ∧
    (Neutronics.in_code.STRATEGY = 1 ∧ Neutronics.documented.STRATEGY = 0) ∧
    (Neutronics.in_code.CAND_LIST = CandList.H2D_HP_ANISO ∧
      Neutronics.documented.CAND_LIST = CandList.H2D_HP_ANISO_P) ∧
    (Neutronics.in_code.ERR_STOP = 5 / 100 ∧ Neutronics.documented.ERR_STOP = 4 ∧
      Neutronics.in_code.ERR_STOP ≠ Neutronics.documented.ERR_STOP) ∧
    (Neutronics.in_code.NDOF_STOP = 60000 ∧ Neutronics.documented.NDOF_STOP = 40000) ∧
    Neutronics.in_code.STRATEGY ≠ Neutronics.documented.STRATEGY ∧
    Neutronics.in_code.CAND_LIST ≠ Neutronics.documented.CAND_LIST ∧
    Neutronics.in_code.NDOF_STOP ≠ Neutronics.documented.NDOF_STOP := by
  refine ⟨⟨rfl, rfl, rfl, rfl, rfl⟩, ⟨rfl, rfl⟩, ⟨rfl, rfl⟩, ⟨rfl, rfl, ?_⟩, ⟨rfl, rfl⟩,
    by decide, by decide, by decide⟩
  show (5 / 100 : ℚ) ≠ 4
  norm_num

/-! ## The path index as a key -/

namespace Transformable

variable {α : Type}

/-- A traversed state holds a sequence of sons in `0..7` whose length is the
depth and whose path index is `sub_idx`, whatever elements were active. -/
theorem traversed_path [Mul α] [Add α] [One α] [Zero α] (tb : Tables α)
    (s : Transformable α) (h : Traversed tb s) :
    ∃ P : List Int, s.top = P.length ∧ P.length ≤ 20 ∧ s.sub_idx = encode P ∧
      ∀ x ∈ P, 0 ≤ x ∧ x ≤ 7 := by
  induction h with
  | reset s0 => exact ⟨[], rfl, by simp, rfl, by simp⟩
  | set_active_element s e _ ih => exact ih
  | push s1 s2 son e _ _ hv hp ih =>
    obtain ⟨P, htop, hlen, hidx, hP⟩ := ih
    have hson := valid_son_le e son hv
    obtain ⟨hlt, h2, -, -, h5⟩ := push_done_fields tb s1 s2 son hp
    have hb := encode_bound P hP
    have hpw : 8 ^ (P.length + 1) ≤ 8 ^ 20 := Nat.pow_le_pow_right (by norm_num) (by omega)
    refine ⟨P ++ [son], by rw [h2, htop]; simp, by simp; omega, ?_, ?_⟩
    · rw [h5, hidx, encode_append]
      exact push_idx_exact _ son (by norm_num at hpw ⊢; omega) hson
    · intro x hx
      rcases List.mem_append.1 hx with hx | hx
      · exact hP x hx
      · simp at hx; subst hx; exact hson
  | pop s1 s2 _ hp ih =>
    obtain ⟨P, htop, hlen, hidx, hP⟩ := ih
    have hpos := pop_done_inv s1 s2 hp
    rw [pop_eq s1 hpos] at hp
    have heq := Outcome.done.inj hp
    subst heq
    rcases List.eq_nil_or_concat P with hnil | ⟨q, a, hq⟩
    · simp [hnil] at htop; omega
    · rw [List.concat_eq_append] at hq
      subst hq
      simp only [List.length_append, List.length_singleton] at htop hlen
      have hq7 : ∀ x ∈ q, 0 ≤ x ∧ x ≤ 7 := fun x hx => hP x (by simp [hx])
      have ha := hP a (by simp)
      have hb := encode_bound q hq7
      have hpw : 8 ^ (q.length + 1) ≤ 8 ^ 20 := Nat.pow_le_pow_right (by norm_num) (by omega)
      refine ⟨q, ?_, by omega, ?_, hq7⟩
      · show s1.top - 1 = _
        rw [htop]; push_cast; ring
      · show ((s1.sub_idx + (UINT64_MOD - 1)) % UINT64_MOD) >>> 3 = encode q
        rw [hidx, encode_append]
        exact pop_idx_exact _ a (by norm_num at hpw ⊢; omega) ha

/-- C9, as amended (the encoding is one-to-one): for two son sequences of length
at most 20, valid for elements of one shape (sons in 0..7, in 0..3 for
triangles), the pushes after a reset complete and yield equal path indices if
and only if the sequences are equal; hence two evaluators that report the same
path index have the same depth, even when their active elements changed on the
way, and they have the same current transform when each has kept one active
element, of the same shape for both, since its last `reset_transform`. -/
theorem path_index_one_to_one [Mul α] [Add α] [One α] [Zero α] (tb : Tables α)
    (e1 e2 : Element) (S T : List Int) (s1 s2 : Transformable α)
    (hshape : e1.is_triangle = e2.is_triangle)
    (hel1 : s1.element = some e1) (hel2 : s2.element = some e2)
    (hS : ∀ x ∈ S, valid_son e1 x) (hT : ∀ x ∈ T, valid_son e2 x)
    (hSlen : S.length ≤ 20) (hTlen : T.length ≤ 20) :
    (∃ r1 r2, run tb (reset_transform s1) (S.map Call.push) = .done r1 ∧
      run tb (reset_transform s2) (T.map Call.push) = .done r2 ∧
      (get_transform r1 = get_transform r2 ↔ S = T)) ∧
    (∀ r1 r2, Traversed tb r1 → Traversed tb r2 →
      get_transform r1 = get_transform r2 → get_depth r1 = get_depth r2) ∧
    (∀ r1 r2, Reachable tb e1 r1 → Reachable tb e2 r2 →
      get_transform r1 = get_transform r2 →
      get_depth r1 = get_depth r2 ∧ get_ctm r1 = get_ctm r2) := by
  refine ⟨?_, ?_, ?_⟩
  · obtain ⟨r1, hr1, ht1⟩ := run_pushes_tracks tb e1 S _ [] (reset_tracks tb e1 s1 hel1) hS
      (by simpa using hSlen)
    obtain ⟨r2, hr2, ht2⟩ := run_pushes_tracks tb e2 T _ [] (reset_tracks tb e2 s2 hel2) hT
      (by simpa using hTlen)
    simp only [List.nil_append] at ht1 ht2
    refine ⟨r1, r2, hr1, hr2, ?_⟩
    rw [(tracks_view tb e1 r1 S ht1).2.2, (tracks_view tb e2 r2 T ht2).2.2]
    constructor
    · exact encode_injective S T (fun x hx => valid_son_le e1 x (hS x hx))
        (fun x hx => valid_son_le e2 x (hT x hx))
    · intro h; rw [h]
  · intro r1 r2 h1 h2 hidx
    obtain ⟨A, hA1, -, hA3, hA4⟩ := traversed_path tb r1 h1
    obtain ⟨B, hB1, -, hB3, hB4⟩ := traversed_path tb r2 h2
    have hAB : A = B := by
      rw [get_transform, get_transform, hA3, hB3] at hidx
      exact encode_injective A B hA4 hB4 hidx
    subst hAB
    rw [get_depth, get_depth, hA1, hB1]
  · intro r1 r2 h1 h2 hidx
    obtain ⟨A, hA⟩ := reachable_tracks tb e1 r1 h1
    obtain ⟨B, hB⟩ := reachable_tracks tb e2 r2 h2
    obtain ⟨hc1, hd1, hi1⟩ := tracks_view tb e1 r1 A hA
    obtain ⟨hc2, hd2, hi2⟩ := tracks_view tb e2 r2 B hB
    have hAB : A = B := by
      rw [hi1, hi2] at hidx
      exact encode_injective A B (fun x hx => valid_son_le e1 x (hA.2.2.2.2.2.1 x hx))
        (fun x hx => valid_son_le e2 x (hB.2.2.2.2.2.1 x hx)) hidx
    subst hAB
    exact ⟨by rw [hd1, hd2], by rw [hc1, hc2, path_trf_shape tb e1 e2 hshape]⟩

/-- The sons 2, 5 and the sons 5, 2 of a quadrilateral have different path
indices (30 and 51); two evaluators that kept a quadrilateral and report the
same index agree in depth and transform. -/
theorem path_index_one_to_one_witness :
    get_transform (run sample_tables (reset_transform sample_state)
      [.push 2, .push 5]).state = 30 ∧
    get_transform (run sample_tables (reset_transform sample_state)
      [.push 5, .push 2]).state = 51 ∧
    (∃ r1 r2, run sample_tables (reset_transform sample_state) [.push 2, .push 5] = .done r1 ∧
      run sample_tables (reset_transform sample_pushed) [.push 5, .push 2] = .done r2 ∧
      (get_transform r1 = get_transform r2 ↔ [(2 : Int), 5] = [5, 2])) ∧
    (∀ r1 r2, Traversed sample_tables r1 → Traversed sample_tables r2 →
      get_transform r1 = get_transform r2 → get_depth r1 = get_depth r2) ∧
    (∀ r1 r2, Reachable sample_tables sample_quad r1 → Reachable sample_tables sample_quad r2 →
      get_transform r1 = get_transform r2 →
      get_depth r1 = get_depth r2 ∧ get_ctm r1 = get_ctm r2) :=
  ⟨rfl, rfl,
    path_index_one_to_one sample_tables sample_quad sample_quad [2, 5] [5, 2] sample_state
      sample_pushed rfl rfl rfl (by decide) (by decide) (by decide) (by decide)⟩

/-- C9, as stated, fails when an active element is changed during a descent:
one evaluator is constructed, given a triangle, pushed with son 2 and then
given a quadrilateral; the other is constructed, given the quadrilateral and
pushed with son 2.  Both are on the same element, report the path index 3 and
the depth 1, yet their current transforms differ (translation (-1/2, 1/2)
against (1/2, 1/2)). -/
theorem path_index_counterexample :
    ∃ a b : Transformable ℚ,
      run sample_tables (set_active_element (ctor sample_state) (some sample_tri))
        [.push 2] = .done a ∧
      run sample_tables (set_active_element (ctor sample_state) (some sample_quad))
        [.push 2] = .done b ∧
      valid_son sample_tri 2 ∧ valid_son sample_quad 2 ∧
      Constructed sample_tables (set_active_element a (some sample_quad)) ∧
      Constructed sample_tables b ∧
      get_active_element (set_active_element a (some sample_quad)) = get_active_element b ∧
      get_transform (set_active_element a (some sample_quad)) = 3 ∧ get_transform b = 3 ∧
      get_depth (set_active_element a (some sample_quad)) = 1 ∧ get_depth b = 1 ∧
      get_ctm (set_active_element a (some sample_quad)) = ⟨(1/2, 1/2), (-1/2, 1/2)⟩ ∧
      get_ctm b = ⟨(1/2, 1/2), (1/2, 1/2)⟩ ∧
      get_ctm (set_active_element a (some sample_quad)) ≠ get_ctm b := by
  have ha : get_ctm (set_active_element
      (run sample_tables (set_active_element (ctor sample_state) (some sample_tri))
        [.push 2]).state (some sample_quad)) = ⟨(1/2, 1/2), (-1/2, 1/2)⟩ := by
    simp [get_ctm, set_active_element, ctor, run, step, Outcome.state, push_transform,
      reset_transform, sample_state, sample_tri, sample_tables, write_m0, write_m1,
      write_t0, write_t1]
  have hb : get_ctm (run sample_tables
      (set_active_element (ctor sample_state) (some sample_quad)) [.push 2]).state
      = ⟨(1/2, 1/2), (1/2, 1/2)⟩ := by
    simp [get_ctm, set_active_element, ctor, run, step, Outcome.state, push_transform,
      reset_transform, sample_state, sample_quad, sample_tables, write_m0, write_m1,
      write_t0, write_t1]
  have h0t : Constructed sample_tables
      (set_active_element (ctor sample_state) (some sample_tri)) :=
    Constructed.set_active_element _ _ (Constructed.ctor sample_state)
  have h0q : Constructed sample_tables
      (set_active_element (ctor sample_state) (some sample_quad)) :=
    Constructed.set_active_element _ _ (Constructed.ctor sample_state)
  have hca : Constructed sample_tables
      (run sample_tables (set_active_element (ctor sample_state) (some sample_tri))
        [.push 2]).state := run_constructed sample_tables [.push 2] _ _ h0t rfl
  have hcb : Constructed sample_tables
      (run sample_tables (set_active_element (ctor sample_state) (some sample_quad))
        [.push 2]).state := run_constructed sample_tables [.push 2] _ _ h0q rfl
  have hne : get_ctm (set_active_element
      (run sample_tables (set_active_element (ctor sample_state) (some sample_tri))
        [.push 2]).state (some sample_quad))
      ≠ get_ctm (run sample_tables
        (set_active_element (ctor sample_state) (some sample_quad)) [.push 2]).state := by
    rw [ha, hb]
    intro h
    have h2 := congrArg (fun x : Trf ℚ => x.t.1) h
    norm_num at h2
  exact ⟨_, _, rfl, rfl, by decide, by decide,
    Constructed.set_active_element _ _ hca, hcb, rfl, rfl, rfl, rfl, rfl, ha, hb, hne⟩

end Transformable

end Hermes2D
